import Mathlib

/-!
Verification of the rrfusion patent-search fusion engine.

The Python sources are shallowly embedded:

* Python `dict` (insertion ordered, unique string keys) is modelled as an
  association list `List (String × α)`; `defaultdict(float)` accumulation
  keeps the key position on update and appends fresh keys at the end,
  exactly as CPython does.
* Python `float` values are modelled as exact rationals `ℚ`; `int` as `ℤ`.
* Fallible code is modelled in `Except String`.

Each section names the source file and function it embeds.
-/

namespace RRFusion

/-! ## Python dict model -/

/-- A Python `dict[str, α]`: insertion-ordered association list, unique keys. -/
abbrev Dict (α : Type) := List (String × α)

/-- `m.get(key)` -/
def dictGet? {α : Type} : Dict α → String → Option α
  | [], _ => none
  | (k, v) :: rest, key => if k = key then some v else dictGet? rest key

/-- `m.get(key, dflt)` -/
def dictGetD {α : Type} (m : Dict α) (key : String) (dflt : α) : α :=
  (dictGet? m key).getD dflt

/-- `m[key] += v` on a `defaultdict(float)`: updates the entry in place when the
key is present, appends `(key, v)` otherwise (CPython keeps insertion order). -/
def dictAdd (m : Dict ℚ) (key : String) (v : ℚ) : Dict ℚ :=
  match m with
  | [] => [(key, v)]
  | (k, w) :: rest =>
      if k = key then (k, w + v) :: rest else (k, w) :: dictAdd rest key v

/-- `m[k1][k2] += v` on a `defaultdict(lambda: defaultdict(float))`. -/
def dictAdd2 (m : Dict (Dict ℚ)) (k1 k2 : String) (v : ℚ) : Dict (Dict ℚ) :=
  match m with
  | [] => [(k1, [(k2, v)])]
  | (k, inner) :: rest =>
      if k = k1 then (k, dictAdd inner k2 v) :: rest
      else (k, inner) :: dictAdd2 rest k1 k2 v

/-- `m[key] = v`: update in place when present, append otherwise. -/
def dictSet {α : Type} (m : Dict α) (key : String) (v : α) : Dict α :=
  match m with
  | [] => [(key, v)]
  | (k, w) :: rest =>
      if k = key then (k, v) :: rest else (k, w) :: dictSet rest key v

/-- `{**a, **b}`: entries of `a` in order (values overridden by `b` where the
key collides), then the remaining entries of `b` in order. -/
def dictUpdate {α : Type} (a b : Dict α) : Dict α :=
  b.foldl (fun acc p => dictSet acc p.1 p.2) a

/-! ## `src/rrfusion/utils.py` — `truncate_field` -/

/-- `truncate_field(value, max_chars)` from `utils.py`. `max_chars` is a Python
`int`, hence `ℤ`. -/
def truncate_field (value : String) (max_chars : ℤ) : String :=
  if max_chars ≤ 0 then ""
  else if (value.length : ℤ) ≤ max_chars then value
  else
    let ellipsis : String := if max_chars > 3 then "..." else ""
    let slice_len : ℤ := max_chars - (ellipsis.length : ℤ)
    (value.take slice_len.toNat) ++ ellipsis

/-! ## `src/rrfusion/fusion.py` — `compute_rrf_scores` and `sort_scores` -/

/-- The lane weight chosen by `compute_rrf_scores`:
`weights.get(lane, weights.get("recall" if lane == "fulltext" else "semantic", 1.0))`. -/
def laneWeight (weights : Dict ℚ) (lane : String) : ℚ :=
  dictGetD weights lane
    (dictGetD weights (if lane = "fulltext" then "recall" else "semantic") 1)

/-- Inner loop of `compute_rrf_scores`:
`for rank, (doc_id, _original) in enumerate(docs, start=1)` accumulating
`lane_weight / (rrf_k + rank)` into the totals and the per-role bucket. -/
def rrfDocsFold (roleKey : String) (lane_weight : ℚ) (rrf_k : ℤ) :
    List (String × ℚ) → ℕ → Dict ℚ × Dict (Dict ℚ) → Dict ℚ × Dict (Dict ℚ)
  | [], _, st => st
  | (doc_id, _orig) :: rest, rank, st =>
      let score := lane_weight / ((rrf_k : ℚ) + (rank : ℚ))
      rrfDocsFold roleKey lane_weight rrf_k rest (rank + 1)
        (dictAdd st.1 doc_id score, dictAdd2 st.2 doc_id roleKey score)

/-- `compute_rrf_scores(lanes, rrf_k, weights)` from `fusion.py`:
returns `(total_scores, contributions)`. -/
def compute_rrf_scores (lanes : Dict (List (String × ℚ))) (rrf_k : ℤ)
    (weights : Dict ℚ) : Dict ℚ × Dict (Dict ℚ) :=
  lanes.foldl
    (fun st p =>
      rrfDocsFold (if p.1 = "fulltext" then "recall" else "semantic")
        (laneWeight weights p.1) rrf_k p.2 1 st)
    ([], [])

/-- Stable insertion (descending by score) used to model Python's stable
`sorted(..., key=lambda item: item[1], reverse=True)`: an element is placed
before the first element whose score is not larger, so earlier-inserted
elements win ties. -/
def insertDesc (x : String × ℚ) : List (String × ℚ) → List (String × ℚ)
  | [] => [x]
  | y :: ys => if x.2 ≥ y.2 then x :: y :: ys else y :: insertDesc x ys

/-- `sort_scores(scores)` from `fusion.py`: stable descending sort of the
dict items by value. -/
def sort_scores (scores : Dict ℚ) : List (String × ℚ) :=
  scores.foldr insertDesc []

/-- Reference quantity for the RRF claim: the sum, over the lanes and over the
1-based ranks at which document `d` occurs in the lane's list, of
`weight / (rrf_k + rank)`; `rank` is the offset at which enumeration starts. -/
def rankSum (w : ℚ) (rrf_k : ℤ) (d : String) : List (String × ℚ) → ℕ → ℚ
  | [], _ => 0
  | x :: rest, rank =>
      (if x.1 = d then w / ((rrf_k : ℚ) + (rank : ℚ)) else 0) +
        rankSum w rrf_k d rest (rank + 1)

/-- Reference quantity for the RRF claim: cumulative score of `d` as the spec
describes it — summed over all lanes, each contributing `weight/(rrf_k+rank)`
at every 1-based rank where `d` occurs. -/
def rrfReferenceTotal (lanes : Dict (List (String × ℚ))) (rrf_k : ℤ)
    (weights : Dict ℚ) (d : String) : ℚ :=
  (lanes.map (fun p => rankSum (laneWeight weights p.1) rrf_k d p.2 1)).sum

/-! ## `src/rrfusion/utils.py` — `normalize_fi_subgroup`

Python string/char primitives are modelled on their ASCII fragment
(classification codes are ASCII). -/

/-- Python whitespace removed by `str.strip()` (space, tab, LF, CR, VT, FF). -/
def pyIsSpace (c : Char) : Bool :=
  decide (c.toNat = 32 ∨ c.toNat = 9 ∨ c.toNat = 10 ∨ c.toNat = 13 ∨
    c.toNat = 11 ∨ c.toNat = 12)

/-- Python `str.isalpha()` on one character (ASCII letters). -/
def pyIsAlpha (c : Char) : Bool :=
  decide ((65 ≤ c.toNat ∧ c.toNat ≤ 90) ∨ (97 ≤ c.toNat ∧ c.toNat ≤ 122))

/-- Python `str.isdigit()` on one character (ASCII digits). -/
def pyIsDigit (c : Char) : Bool :=
  decide (48 ≤ c.toNat ∧ c.toNat ≤ 57)

/-- Python `str.upper()` on one character (ASCII). -/
def pyUpper (c : Char) : Char :=
  if 97 ≤ c.toNat ∧ c.toNat ≤ 122 then Char.ofNat (c.toNat - 32) else c

/-- Python `str.strip()`: remove leading and trailing whitespace. -/
def pyStrip (l : List Char) : List Char :=
  List.rdropWhile pyIsSpace (l.dropWhile pyIsSpace)

/-- The edition-stripping step of `normalize_fi_subgroup`:
`if len(code) > 1 and code[-1].isalpha() and code[-2].isdigit():
return code[:-1]`. -/
def stripEdition (l : List Char) : List Char :=
  match l.reverse with
  | a :: b :: rest =>
      if pyIsAlpha a && pyIsDigit b then (b :: rest).reverse else l
  | _ => l

/-- Character-list body of `normalize_fi_subgroup(fi)` from `utils.py`:
strip, return `""` when empty, uppercase, strip a trailing edition letter. -/
def normFiChars (l : List Char) : List Char :=
  let code := pyStrip l
  if code = [] then [] else stripEdition (code.map pyUpper)

/-- `normalize_fi_subgroup(fi)` from `utils.py`. -/
def normalize_fi_subgroup (fi : String) : String :=
  ⟨normFiChars fi.data⟩

/-! ## `src/rrfusion/snippets.py` — `cap_by_budget`

A snippet item (`dict[str, str]`) is an ordered association list; its byte
cost is `len(json.dumps(item, ensure_ascii=False).encode("utf-8"))`, modelled
character by character below. -/

/-- A snippet item: Python `dict[str, str]`. -/
abbrev Item := List (String × String)

/-- `"{"` as a character. -/
def lbrace : Char := Char.ofNat 123

/-- `"}"` as a character. -/
def rbrace : Char := Char.ofNat 125

/-- Lowercase hex digit, as used by `json` for `\u00XX` escapes. -/
def hexDigitChar (n : ℕ) : Char :=
  if n < 10 then Char.ofNat (48 + n) else Char.ofNat (87 + n)

/-- JSON string escaping as performed by `json.dumps(..., ensure_ascii=False)`:
backslash, double quote and the named control characters get two-character
escapes, remaining control characters get `\u00XX`, everything else is kept
verbatim (and later encoded as UTF-8). -/
def jsonEscapeChar (c : Char) : List Char :=
  if c = '\\' then ['\\', '\\']
  else if c = '"' then ['\\', '"']
  else if c.toNat = 8 then ['\\', 'b']
  else if c.toNat = 12 then ['\\', 'f']
  else if c.toNat = 10 then ['\\', 'n']
  else if c.toNat = 13 then ['\\', 'r']
  else if c.toNat = 9 then ['\\', 't']
  else if c.toNat < 32 then
    ['\\', 'u', '0', '0', hexDigitChar (c.toNat / 16), hexDigitChar (c.toNat % 16)]
  else [c]

/-- A JSON string literal `"…"`. -/
def jsonStringChars (s : String) : List Char :=
  '"' :: (s.data.flatMap jsonEscapeChar ++ ['"'])

/-- One `"key": "value"` entry (default `json.dumps` item separator `": "`). -/
def jsonEntryChars (p : String × String) : List Char :=
  jsonStringChars p.1 ++ (':' :: ' ' :: jsonStringChars p.2)

/-- `json.dumps(item, ensure_ascii=False)` for a flat string dict (default
separators `", "` and `": "`). -/
def jsonDumpsChars (item : Item) : List Char :=
  lbrace :: (List.intercalate [',', ' '] (item.map jsonEntryChars) ++ [rbrace])

/-- UTF-8 byte length of a character list. -/
def utf8Len (l : List Char) : ℕ := (l.map Char.utf8Size).sum

/-- `len(json.dumps(item, ensure_ascii=False).encode("utf-8"))`. -/
def encodedLen (item : Item) : ℕ := utf8Len (jsonDumpsChars item)

/-- Loop body of `cap_by_budget` from `snippets.py`: accumulate items in order,
breaking (with `truncated = True`) at the first item whose encoded length
would push the running total over the budget. -/
def capByBudgetGo (budget_bytes : ℤ) : List Item → ℕ → List Item × ℕ × Bool
  | [], used => ([], used, false)
  | item :: rest, used =>
      if (used : ℤ) + encodedLen item > budget_bytes then ([], used, true)
      else
        let r := capByBudgetGo budget_bytes rest (used + encodedLen item)
        (item :: r.1, r.2)

/-- `cap_by_budget(items, budget_bytes)` from `snippets.py`:
returns `(acc, used, truncated)`. -/
def cap_by_budget (items : List Item) (budget_bytes : ℤ) :
    List Item × ℕ × Bool :=
  capByBudgetGo budget_bytes items 0

/-! ## `src/rrfusion/fusion.py` — `compute_frontier`

`BlendFrontierEntry` holds the rounded precision/recall/Fβ triple; Python's
`round(x, 3)` (round half to even) is modelled exactly on rationals. -/

/-- Round to the nearest integer, ties to even (Python's `round`). -/
def roundHalfEven (q : ℚ) : ℤ :=
  if q - ⌊q⌋ < 1/2 then ⌊q⌋
  else if 1/2 < q - ⌊q⌋ then ⌊q⌋ + 1
  else if Even ⌊q⌋ then ⌊q⌋ else ⌊q⌋ + 1

/-- Python `round(x, 3)`. -/
def round3 (q : ℚ) : ℚ := (roundHalfEven (q * 1000) : ℚ) / 1000

/-- `BlendFrontierEntry` from `models.py` (the fields used by
`compute_frontier`). -/
structure BlendFrontierEntry where
  k : ℕ
  P_star : ℚ
  R_star : ℚ
  F_beta_star : ℚ
deriving DecidableEq, Repr

/-- The `uniform` dict of `compute_frontier`: all-ones over the ranked docs
when the π' mass is ≤ 0, otherwise the π' scores restricted to the ranked
docs (`uniform.get(d, 0.0)` reads 0 outside). -/
def frontierUniform (ordered : List String) (pi_scores : Dict ℚ) :
    String → ℚ :=
  if (ordered.map (fun d => dictGetD pi_scores d 0)).sum ≤ 0 then
    fun d => if d ∈ ordered then 1 else 0
  else
    fun d => if d ∈ ordered then dictGetD pi_scores d 0 else 0

/-- The `total_score` of `compute_frontier` after the zero-mass fallback. -/
def frontierTotal (ordered : List String) (pi_scores : Dict ℚ) : ℚ :=
  if (ordered.map (fun d => dictGetD pi_scores d 0)).sum ≤ 0 then
    (ordered.length : ℚ)
  else (ordered.map (fun d => dictGetD pi_scores d 0)).sum

/-- `sum_top` for the subset `ordered_docs[:n]` in `compute_frontier`. -/
def frontierSumTop (ordered : List String) (pi_scores : Dict ℚ) (n : ℕ) : ℚ :=
  ((ordered.take n).map (frontierUniform ordered pi_scores)).sum

/-- `precision = sum_top / len(subset)` in `compute_frontier`. -/
def frontierPrecision (ordered : List String) (pi_scores : Dict ℚ)
    (n : ℕ) : ℚ :=
  frontierSumTop ordered pi_scores n / ((ordered.take n).length : ℚ)

/-- `recall = sum_top / total_score if total_score > 0 else 0.0`. -/
def frontierRecall (ordered : List String) (pi_scores : Dict ℚ) (n : ℕ) : ℚ :=
  if 0 < frontierTotal ordered pi_scores then
    frontierSumTop ordered pi_scores n / frontierTotal ordered pi_scores
  else 0

/-- `f_beta` in `compute_frontier`: 0 at (0, 0), else
`(1+β²)·P·R / (β²·P + R)`. -/
def frontierFBeta (ordered : List String) (pi_scores : Dict ℚ)
    (beta_fuse : ℚ) (n : ℕ) : ℚ :=
  if frontierPrecision ordered pi_scores n = 0 ∧
      frontierRecall ordered pi_scores n = 0 then 0
  else
    (1 + beta_fuse * beta_fuse) * frontierPrecision ordered pi_scores n *
        frontierRecall ordered pi_scores n /
      (beta_fuse * beta_fuse * frontierPrecision ordered pi_scores n +
        frontierRecall ordered pi_scores n)

/-- The frontier entry built for a subset of length `n` (the loop body of
`compute_frontier` for one grid value, with `n = min(k, len(ordered_docs))`). -/
def frontierEntry (ordered : List String) (pi_scores : Dict ℚ)
    (beta_fuse : ℚ) (n : ℕ) : BlendFrontierEntry :=
  ⟨(ordered.take n).length,
    round3 (frontierPrecision ordered pi_scores n),
    round3 (frontierRecall ordered pi_scores n),
    round3 (frontierFBeta ordered pi_scores beta_fuse n)⟩

/-- `compute_frontier(ordered_docs, k_grid, pi_scores, beta_fuse)` from
`fusion.py`. -/
def compute_frontier (ordered_docs : List String) (k_grid : List ℤ)
    (pi_scores : Dict ℚ) (beta_fuse : ℚ) : List BlendFrontierEntry :=
  if ordered_docs = [] then []
  else
    k_grid.foldr
      (fun k acc =>
        if k ≤ 0 then acc
        else if ordered_docs.take (min k.toNat ordered_docs.length) = [] then acc
        else
          frontierEntry ordered_docs pi_scores beta_fuse
            (min k.toNat ordered_docs.length) :: acc)
      []

/-- Reference quantity for the frontier claim: `sum_top` over the first `k`
ranked documents. -/
def claimedSumTop (ordered : List String) (pi_scores : Dict ℚ) (k : ℕ) : ℚ :=
  ((ordered.take k).map (fun d => dictGetD pi_scores d 0)).sum

/-- Reference quantity for the frontier claim: Σ π' over all ranked docs. -/
def claimedPiMass (ordered : List String) (pi_scores : Dict ℚ) : ℚ :=
  (ordered.map (fun d => dictGetD pi_scores d 0)).sum

/-- Reference quantity for the frontier claim:
`Fβ = (1+β²)·P·R / (β²·P + R)`, 0 when precision and recall are both 0. -/
def claimedFBeta (beta_fuse P R : ℚ) : ℚ :=
  if P = 0 ∧ R = 0 then 0
  else (1 + beta_fuse * beta_fuse) * P * R / (beta_fuse * beta_fuse * P + R)

/-! ## `src/rrfusion/fusion.py` — code scores, facet scores, lane consistency
and π' -/

/-- Per-document metadata fields consumed by the π' pipeline
(`meta.get(..., [])` / `meta.get(..., "")` defaults are the field defaults). -/
structure DocMeta where
  ipc_codes : List String := []
  cpc_codes : List String := []
  ft_codes : List String := []
  fi_codes : List String := []
  fi_norm_codes : List String := []
  claim : String := ""
  abst : String := ""
  desc : String := ""
deriving DecidableEq, Repr

/-- The dedup-and-normalize loop of `_get_doc_fi_norm_codes`:
skip falsy codes, normalize, keep first occurrence of each subgroup. -/
def fiNormDedup (codes : List String) (seen : List String) : List String :=
  match codes with
  | [] => []
  | c :: rest =>
      if c = "" then fiNormDedup rest seen
      else
        let subgroup := normalize_fi_subgroup c
        if subgroup ≠ "" ∧ subgroup ∉ seen then
          subgroup :: fiNormDedup rest (subgroup :: seen)
        else fiNormDedup rest seen

/-- `_get_doc_fi_norm_codes(meta)` from `fusion.py`. -/
def get_doc_fi_norm_codes (meta : DocMeta) : List String :=
  if meta.fi_norm_codes ≠ [] then meta.fi_norm_codes.filter (fun c => c ≠ "")
  else fiNormDedup meta.fi_codes []

/-- `_build_fi_profiles(fi_profile)` from `fusion.py`: positive weights are
accumulated under the subgroup-normalized code (primary) and under the exact
code (secondary). -/
def build_fi_profiles (fi_profile : Option (Dict ℚ)) : Dict ℚ × Dict ℚ :=
  match fi_profile with
  | none => ([], [])
  | some profile =>
      if profile = [] then ([], [])
      else
        profile.foldl
          (fun st p =>
            if p.2 ≤ 0 then st
            else
              let subgroup := normalize_fi_subgroup p.1
              ((if subgroup ≠ "" then dictAdd st.1 subgroup p.2 else st.1),
                dictAdd st.2 p.1 p.2))
          ([], [])

/-- `sum(desired.get(code, 0.0) for code in codes)`. -/
def taxScore (desired : Dict ℚ) (codes : List String) : ℚ :=
  (codes.map (fun c => dictGetD desired c 0)).sum

/-- The per-document raw overlap of `compute_code_scores`: profile weights
summed over the document's IPC/CPC/FT codes plus the FI-primary profile over
the subgroup-normalized FI codes. -/
def rawCodeScore (fi_primary : Dict ℚ) (target_profile : Dict (Dict ℚ))
    (meta : DocMeta) : ℚ :=
  taxScore (dictGetD target_profile "ipc" []) meta.ipc_codes
    + taxScore (dictGetD target_profile "cpc" []) meta.cpc_codes
    + taxScore (dictGetD target_profile "ft" []) meta.ft_codes
    + taxScore fi_primary (get_doc_fi_norm_codes meta)

/-- `compute_code_scores(doc_meta, target_profile)` from `fusion.py`. -/
def compute_code_scores (doc_meta : Dict DocMeta)
    (target_profile : Dict (Dict ℚ)) : Dict ℚ :=
  if target_profile = [] then doc_meta.map (fun p => (p.1, 1))
  else
    let fi_primary := (build_fi_profiles (dictGet? target_profile "fi")).1
    let raw_scores :=
      doc_meta.map (fun p => (p.1, rawCodeScore fi_primary target_profile p.2))
    let max_score := raw_scores.foldl (fun m p => max m p.2) 0
    if max_score ≤ 0 then doc_meta.map (fun p => (p.1, 1))
    else raw_scores.map (fun p => (p.1, p.2 / max_score))

/-- Python `str.lower()` on one character (ASCII). -/
def pyLower (c : Char) : Char :=
  if 65 ≤ c.toNat ∧ c.toNat ≤ 90 then Char.ofNat (c.toNat + 32) else c

/-- `s.lower()` as a character list. -/
def lowerChars (s : String) : List Char := s.data.map pyLower

/-- Does `hay` start with `ndl`? -/
def startsWith : List Char → List Char → Bool
  | _, [] => true
  | [], _ :: _ => false
  | h :: hs, n :: ns => h = n && startsWith hs ns

/-- Python substring test `ndl in hay`. -/
def containsSub (ndl : List Char) : List Char → Bool
  | [] => ndl.isEmpty
  | h :: t => startsWith (h :: t) ndl || containsSub ndl t

/-- `field_weights = {"claim": 0.5, "abst": 0.3, "desc": 0.2}`. -/
def facetFieldWeights : List (String × ℚ) :=
  [("claim", 1/2), ("abst", 3/10), ("desc", 1/5)]

/-- `meta.get(field, "")` for the three snippet text fields. -/
def docField (meta : DocMeta) (field : String) : String :=
  if field = "claim" then meta.claim
  else if field = "abst" then meta.abst
  else if field = "desc" then meta.desc
  else ""

/-- Does any term of the facet's synonym cluster occur (case-insensitively)
in the text? -/
def anyTermIn (terms : List String) (text : List Char) : Bool :=
  terms.any (fun t => containsSub (lowerChars t) text)

/-- The per-facet component score of `compute_facet_score`: the sum of the
field weights of the non-empty fields containing some term. -/
def compScore (meta : DocMeta) (terms : List String) : ℚ :=
  (facetFieldWeights.map (fun fw =>
    if lowerChars (docField meta fw.1) = [] then 0
    else if anyTermIn terms (lowerChars (docField meta fw.1)) then fw.2
    else 0)).sum

/-- `max(facet_weights.get(comp, 1.0) if facet_weights else 1.0, 0.0)`. -/
def normalizedWeight (facet_weights : Option (Dict ℚ)) (comp : String) : ℚ :=
  max (match facet_weights with
        | some fw => dictGetD fw comp 1
        | none => 1) 0

/-- `compute_facet_score(doc_meta, facet_terms, facet_weights)` from
`fusion.py`. -/
def compute_facet_score (doc_meta : Dict DocMeta)
    (facet_terms : Dict (List String)) (facet_weights : Option (Dict ℚ)) :
    Dict ℚ :=
  if facet_terms = [] then doc_meta.map (fun p => (p.1, 1))
  else
    let total_weight0 :=
      (facet_terms.map (fun c => normalizedWeight facet_weights c.1)).sum
    let total_weight :=
      if total_weight0 = 0 then (facet_terms.length : ℚ) else total_weight0
    doc_meta.map (fun p =>
      (p.1,
        min ((facet_terms.map (fun c =>
            normalizedWeight facet_weights c.1 * compScore p.2 c.2)).sum /
          total_weight) 1))

/-- The per-document raw lane-consistency sum `Σ weight / (rank + 1)`. -/
def laneConsistencyRaw (lane_weights : Dict ℚ) (ranks : Dict ℤ) : ℚ :=
  (ranks.map (fun p => dictGetD lane_weights p.1 1 / ((p.2 : ℚ) + 1))).sum

/-- `compute_lane_consistency(lane_ranks, lane_weights)` from `fusion.py`. -/
def compute_lane_consistency (lane_ranks : Dict (Dict ℤ))
    (lane_weights : Dict ℚ) : Dict ℚ :=
  let raw := lane_ranks.map (fun p => (p.1, laneConsistencyRaw lane_weights p.2))
  let max_score := raw.foldl (fun m p => max m p.2) 0
  if max_score = 0 then lane_ranks.map (fun p => (p.1, 0))
  else raw.map (fun p => (p.1, p.2 / max_score))

/-- The weighted raw sum fed to the logistic transform in
`compute_pi_scores`. -/
def piRaw (pi_weights code_scores facet_scores consistency_scores : Dict ℚ)
    (d : String) : ℚ :=
  dictGetD pi_weights "code" 0 * dictGetD code_scores d 0
    + dictGetD pi_weights "facet" 0 * dictGetD facet_scores d 0
    + dictGetD pi_weights "lane" 0 * dictGetD consistency_scores d 0

/-- `compute_pi_scores(...)` from `fusion.py`. The code computes
`1 / (1 + pow(2.71828, -raw))` — the literal constant `2.71828`, not `e`. -/
noncomputable def compute_pi_scores (doc_meta : Dict DocMeta)
    (target_profile : Dict (Dict ℚ)) (facet_terms : Dict (List String))
    (facet_weights : Dict ℚ) (lane_ranks : Dict (Dict ℤ))
    (lane_weights : Dict ℚ) (pi_weights : Dict ℚ) : List (String × ℝ) :=
  let code_scores := compute_code_scores doc_meta target_profile
  let facet_scores := compute_facet_score doc_meta facet_terms (some facet_weights)
  let consistency_scores := compute_lane_consistency lane_ranks lane_weights
  doc_meta.map (fun p =>
    (p.1,
      1 / (1 + Real.rpow 2.71828
        (-(piRaw pi_weights code_scores facet_scores consistency_scores p.1 : ℚ) : ℝ))))

/-- The running maximum maintained by the `compute_code_scores` loop:
`max(0.0, raw overlap over all retained documents)`. -/
def codeMaxOverlap (doc_meta : Dict DocMeta)
    (target_profile : Dict (Dict ℚ)) : ℚ :=
  (doc_meta.map (fun p =>
    rawCodeScore (build_fi_profiles (dictGet? target_profile "fi")).1
      target_profile p.2)).foldl max 0

/-! ## `src/rrfusion/mcp/host.py` — `_normalize_filters`

Incoming filter entries are loosely typed JSON-ish values. -/

/-- A Python/JSON value as it occurs in filter payloads. -/
inductive FValue : Type
  | vNone : FValue
  | vStr : String → FValue
  | vInt : ℤ → FValue
  | vList : List FValue → FValue
  | vDict : List (String × FValue) → FValue
deriving Repr

/-- Python truthiness for the payload values. -/
def fvTruthy : FValue → Bool
  | .vNone => false
  | .vStr s => decide (s ≠ "")
  | .vInt n => decide (n ≠ 0)
  | .vList xs => ¬xs.isEmpty
  | .vDict es => ¬es.isEmpty

/-- Python `a or b`. -/
def pyOr (a b : FValue) : FValue := if fvTruthy a then a else b

/-- `payload.get(key)` with Python's `None` default. -/
def fvDictGet (es : List (String × FValue)) (k : String) : FValue :=
  (dictGet? es k).getD .vNone

/-- `key in payload`. -/
def hasKey (es : List (String × FValue)) (k : String) : Bool :=
  (dictGet? es k).isSome

/-- `s.lower()` (ASCII). -/
def pyLowerStr (s : String) : String := ⟨s.data.map pyLower⟩

/-- `YYYYMMDD` → `YYYY-MM-DD` reformatting applied by `_normalize_date_value`
to an eligible 8-digit string. -/
def dateDigitsToDashed (l : List Char) : List Char :=
  l.take 4 ++ ('-' :: (l.drop 4).take 2) ++ ('-' :: l.drop 6)

/-- The inner `_format` of `_normalize_date_value`. -/
def fvFormatDate : FValue → FValue
  | .vInt n =>
      let s := toString n
      if s.length = 8 ∧ s.data.all pyIsDigit then .vStr ⟨dateDigitsToDashed s.data⟩
      else .vInt n
  | .vStr s =>
      if s.length = 8 ∧ s.data.all pyIsDigit then .vStr ⟨dateDigitsToDashed s.data⟩
      else .vStr s
  | v => v

/-- `_normalize_date_value(value)` from `host.py`. -/
def normalize_date_value : FValue → FValue
  | .vList xs => .vList (xs.map fvFormatDate)
  | .vDict es => .vDict (es.map (fun p => (p.1, fvFormatDate p.2)))
  | v => fvFormatDate v

/-- `Cond` from `models.py`; `lop`, `field`, `op` are pydantic `Literal`
fields checked by `condValidate`. -/
structure Cond where
  lop : String
  field : String
  op : String
  value : FValue
deriving Repr

/-- Extract a required string field of a payload (pydantic validation). -/
def getStrKey (payload : List (String × FValue)) (k : String) :
    Except String String :=
  match dictGet? payload k with
  | some (.vStr s) => .ok s
  | some _ => .error ("validation_error: " ++ k)
  | none => .error ("missing: " ++ k)

/-- `Cond.model_validate(payload)`: the `lop`/`op` values are lower-cased
first (the model's `_normalize_case` validator), then all three `Literal`
fields are checked; `value` is `Any`. -/
def condValidate (payload : List (String × FValue)) : Except String Cond :=
  match getStrKey payload "lop", getStrKey payload "field",
      getStrKey payload "op" with
  | .ok lop0, .ok field, .ok op0 =>
      let lop := pyLowerStr lop0
      let op := pyLowerStr op0
      if ¬(lop = "and" ∨ lop = "or" ∨ lop = "not") then
        .error "validation_error: lop"
      else if ¬(field = "ipc" ∨ field = "fi" ∨ field = "cpc" ∨
          field = "pubyear" ∨ field = "assignee" ∨ field = "country" ∨
          field = "ft") then
        .error "validation_error: field"
      else if ¬(op = "in" ∨ op = "range" ∨ op = "eq" ∨ op = "neq") then
        .error "validation_error: op"
      else
        match dictGet? payload "value" with
        | some v => .ok ⟨lop, field, op, v⟩
        | none => .error "missing: value"
  | .error e, _, _ => .error e
  | _, .error e, _ => .error e
  | _, _, .error e => .error e

/-- `FilterEntry` from `models.py`. -/
structure FilterEntry where
  field : String
  include_values : List String := []
  exclude_values : List String := []
  include_codes : List String := []
  exclude_codes : List String := []
  include_range : Option (Dict String) := none
  exclude_range : Option (Dict String) := none
deriving Repr

/-- Decode an optional `list[str]` payload field (default `[]`). -/
def getStrList (payload : List (String × FValue)) (k : String) :
    Except String (List String) :=
  match dictGet? payload k with
  | none => .ok []
  | some .vNone => .ok []
  | some (.vList xs) =>
      xs.foldr
        (fun (x : FValue) (acc : Except String (List String)) =>
          match x, acc with
          | .vStr s, .ok r => .ok (s :: r)
          | _, .ok _ => .error ("validation_error: " ++ k)
          | _, .error e => .error e)
        (.ok [])
  | some _ => .error ("validation_error: " ++ k)

/-- Decode an optional `dict[str, str]` payload field (default `None`). -/
def getStrDict (payload : List (String × FValue)) (k : String) :
    Except String (Option (Dict String)) :=
  match dictGet? payload k with
  | none => .ok none
  | some .vNone => .ok none
  | some (.vDict es) =>
      match es.foldr
        (fun (p : String × FValue) (acc : Except String (Dict String)) =>
          match p.2, acc with
          | .vStr s, .ok r => .ok ((p.1, s) :: r)
          | _, .ok _ => .error ("validation_error: " ++ k)
          | _, .error e => .error e)
        (.ok []) with
      | .ok r => .ok (some r)
      | .error e => .error e
  | some _ => .error ("validation_error: " ++ k)

/-- `FilterEntry.model_validate(payload)`: `field` is coerced with
`str(value).lower()` (string and integer payloads are modelled; `str()` of
other shapes is out of the modelled fragment), the remaining fields are
typed collections with defaults. -/
def feValidate (payload : List (String × FValue)) : Except String FilterEntry :=
  match dictGet? payload "field" with
  | some (.vStr s) =>
      (match getStrList payload "include_values",
          getStrList payload "exclude_values",
          getStrList payload "include_codes",
          getStrList payload "exclude_codes",
          getStrDict payload "include_range",
          getStrDict payload "exclude_range" with
        | .ok iv, .ok ev, .ok ic, .ok ec, .ok ir, .ok er =>
            .ok ⟨pyLowerStr s, iv, ev, ic, ec, ir, er⟩
        | .error e, _, _, _, _, _ => .error e
        | _, .error e, _, _, _, _ => .error e
        | _, _, .error e, _, _, _ => .error e
        | _, _, _, .error e, _, _ => .error e
        | _, _, _, _, .error e, _ => .error e
        | _, _, _, _, _, .error e => .error e)
  | some (.vInt n) =>
      (match getStrList payload "include_values",
          getStrList payload "exclude_values",
          getStrList payload "include_codes",
          getStrList payload "exclude_codes",
          getStrDict payload "include_range",
          getStrDict payload "exclude_range" with
        | .ok iv, .ok ev, .ok ic, .ok ec, .ok ir, .ok er =>
            .ok ⟨pyLowerStr (toString n), iv, ev, ic, ec, ir, er⟩
        | .error e, _, _, _, _, _ => .error e
        | _, .error e, _, _, _, _ => .error e
        | _, _, .error e, _, _, _ => .error e
        | _, _, _, .error e, _, _ => .error e
        | _, _, _, _, .error e, _ => .error e
        | _, _, _, _, _, .error e => .error e)
  | _ => .error "validation_error: field"

/-- `value_dict.get("from") or value_dict.get("start")` on a `dict[str,str]`:
Python `or` falls through on the falsy empty string. -/
def pyOrStrOpt (a b : Option String) : Option String :=
  match a with
  | some s => if s = "" then b else some s
  | none => b

/-- Truthiness of an optional string (`if start and end:`). -/
def optStrTruthy (o : Option String) : Bool :=
  match o with
  | some s => decide (s ≠ "")
  | none => false

/-- `_conds_from_filter_entry(entry)` from `host.py`. -/
def conds_from_filter_entry (entry : FilterEntry) : List Cond :=
  (if entry.include_values ≠ [] then
    [⟨"and", entry.field, "in", .vList (entry.include_values.map .vStr)⟩]
  else []) ++
  (if entry.exclude_values ≠ [] then
    [⟨"not", entry.field, "in", .vList (entry.exclude_values.map .vStr)⟩]
  else []) ++
  (if entry.include_codes ≠ [] then
    [⟨"and", entry.field, "in", .vList (entry.include_codes.map .vStr)⟩]
  else []) ++
  (if entry.exclude_codes ≠ [] then
    [⟨"not", entry.field, "in", .vList (entry.exclude_codes.map .vStr)⟩]
  else []) ++
  (match entry.include_range with
    | some r =>
        if r ≠ [] then
          match pyOrStrOpt (dictGet? r "from") (dictGet? r "start"),
              pyOrStrOpt (dictGet? r "to") (dictGet? r "end") with
          | some s, some t =>
              if s ≠ "" ∧ t ≠ "" then
                [⟨"and", entry.field, "range", .vList [.vStr s, .vStr t]⟩]
              else []
          | _, _ => []
        else []
    | none => []) ++
  (match entry.exclude_range with
    | some r =>
        if r ≠ [] then
          match pyOrStrOpt (dictGet? r "from") (dictGet? r "start"),
              pyOrStrOpt (dictGet? r "to") (dictGet? r "end") with
          | some s, some t =>
              if s ≠ "" ∧ t ≠ "" then
                [⟨"not", entry.field, "range", .vList [.vStr s, .vStr t]⟩]
              else []
          | _, _ => []
        else []
    | none => [])

/-- `payload["value"] = _normalize_date_value(payload["value"])` when the key
is present. -/
def valueDateFix (payload : List (String × FValue)) :
    List (String × FValue) :=
  match dictGet? payload "value" with
  | some v => dictSet payload "value" (normalize_date_value v)
  | none => payload

/-- The `op == "range"` dict-to-pair rewrite of `_normalize_filters`. -/
def rangePayloadFix (payload : List (String × FValue)) :
    List (String × FValue) :=
  match fvDictGet payload "op" with
  | .vStr op =>
      if op = "range" then
        match fvDictGet payload "value" with
        | .vDict vd =>
            match pyOr (fvDictGet vd "from") (fvDictGet vd "start"),
                pyOr (fvDictGet vd "to") (fvDictGet vd "end") with
            | .vNone, _ => payload
            | .vStr _, .vNone => payload
            | .vInt _, .vNone => payload
            | .vList _, .vNone => payload
            | .vDict _, .vNone => payload
            | s, e => dictSet payload "value" (.vList [s, e])
        | _ => payload
      else payload
  | _ => payload

/-- One incoming element of the `filters` list: an already-typed `Cond`, a
raw dict payload, or anything else (which raises `RuntimeError`). -/
inductive RawFilter : Type
  | asCond : Cond → RawFilter
  | asDict : List (String × FValue) → RawFilter
  | invalid : RawFilter
deriving Repr

/-- The entry loop of `_normalize_filters`. -/
def normalizeGo : List RawFilter → Except String (List Cond)
  | [] => .ok []
  | .asCond c :: rest =>
      match normalizeGo rest with
      | .ok r => .ok (c :: r)
      | .error e => .error e
  | .asDict payload :: rest =>
      if hasKey payload "include_values" ∨ hasKey payload "include_codes" ∨
          hasKey payload "include_range" then
        match feValidate payload, normalizeGo rest with
        | .ok entry, .ok r => .ok (conds_from_filter_entry entry ++ r)
        | .error e, _ => .error e
        | .ok _, .error e => .error e
      else
        match condValidate (rangePayloadFix (valueDateFix payload)),
            normalizeGo rest with
        | .ok c, .ok r => .ok (c :: r)
        | .error e, _ => .error e
        | .ok _, .error e => .error e
  | .invalid :: _ => .error "unexpected filter type"

/-- `_normalize_filters(filters)` from `host.py` (`None` and `[]` both hit
the `if not filters` early return). -/
def normalize_filters (filters : List RawFilter) :
    Except String (List Cond) :=
  if filters.isEmpty then .ok []
  else normalizeGo filters

/-- Field provenance: the ways a raw filter entry can give rise to an output
condition with field `fld`. -/
def providesField (rf : RawFilter) (fld : String) : Prop :=
  match rf with
  | .asCond c => c.field = fld
  | .asDict payload =>
      (∃ s, dictGet? payload "field" = some (.vStr s) ∧
        (fld = s ∨ fld = pyLowerStr s)) ∨
      (∃ n, dictGet? payload "field" = some (.vInt n) ∧
        fld = pyLowerStr (toString n))
  | .invalid => False

/-! ## `src/rrfusion/mcp/service.py` — `mutate_run` and the `blend` prefix

`service.blend` builds `run_weights = [(run.lane, run.weight) for run in
request.runs]` — a *list* of pairs — and passes it as the `weights` argument
of `fusion.compute_rrf_scores`, which immediately calls `weights.get(...)`.
A Python list has no `get` attribute, so the call raises `AttributeError` on
the first loop iteration whenever `lane_docs` is non-empty (which holds
whenever `runs` is non-empty). The definitions below embed `mutate_run`
(meta lookup, recipe deep-copy and delta overlay) and `blend` up to and
including that call; execution never reaches any later statement of `blend`,
so nothing beyond the crash point needs to be modelled. The dynamic
dict-vs-list distinction is made explicit with `PyWeights`. -/

/-- `PeekConfig` from `models.py` (carried inside a recipe). -/
structure PeekCfg where
  count : ℤ
  fields : List String
  per_field_chars : Dict ℤ
  budget_bytes : ℤ
deriving Repr

/-- `MutateDelta` from `models.py`. -/
structure MutateDeltaM where
  weights : Option (Dict ℚ) := none
  rrf_k : Option ℤ := none
  beta_fuse : Option ℚ := none
deriving Repr

/-- A representative entry (doc id and A/B/C label). -/
structure RepEntry where
  doc_id : String
  label : String
deriving Repr

/-- The recipe blob written by `blend` into fusion-run metadata (every key is
always present, so the `.get`/`setdefault` fallbacks of `mutate_run` never
fire). -/
structure Recipe where
  weights : Dict ℚ
  rrf_k : ℤ
  beta_fuse : ℚ
  target_profile : Dict (Dict ℚ)
  top_m_per_lane : Dict ℤ
  k_grid : List ℤ
  peek : Option PeekCfg
  representatives : List RepEntry
  delta : Option MutateDeltaM := none
deriving Repr

/-- `BlendRunInput` from `models.py`. -/
structure BlendRunInput where
  lane : String
  run_id_lane : String
  weight : ℚ := 1
deriving Repr

/-- Run metadata as stored by `store_lane_run` / `store_rrf_run`. -/
structure RunMetaM where
  run_type : String
  run_id : String
  lane_key : Option String := none
  rrf_key : Option String := none
  recipe : Option Recipe := none
  source_runs : List BlendRunInput := []
  parent : Option String := none
  history : List String := []
deriving Repr

/-- The state-store contents touched by `mutate_run`/`blend`. -/
structure StoreM where
  metas : Dict RunMetaM
  rankings : Dict (List (String × ℚ))
deriving Repr

/-- The recipe-overlay step of `mutate_run`: merge `delta.weights` when
truthy, replace `rrf_k` / `beta_fuse` when not `None`; the deep copy is the
identity on pure values and the `setdefault` calls are no-ops because every
recipe key is present. -/
def applyDelta (base : Recipe) (delta : MutateDeltaM) : Recipe :=
  let r1 := match delta.weights with
    | some ws => if ws ≠ [] then { base with weights := dictUpdate base.weights ws } else base
    | none => base
  let r2 := match delta.rrf_k with
    | some k => { r1 with rrf_k := k }
    | none => r1
  match delta.beta_fuse with
  | some b => { r2 with beta_fuse := b }
  | none => r2

/-- The dynamically-typed `weights` argument reaching
`compute_rrf_scores`. -/
inductive PyWeights : Type
  | pydict : Dict ℚ → PyWeights
  | pylist : List (String × ℚ) → PyWeights
deriving Repr

/-- `compute_rrf_scores` under Python's dynamic dispatch: with a dict the
pure function runs; with a list, `weights.get` raises `AttributeError` on
the first lane iteration (no iteration happens for an empty lanes dict). -/
def compute_rrf_scores_dyn (lanes : Dict (List (String × ℚ))) (rrf_k : ℤ)
    (weights : PyWeights) : Except String (Dict ℚ × Dict (Dict ℚ)) :=
  match weights with
  | .pydict es => .ok (compute_rrf_scores lanes rrf_k es)
  | .pylist _ =>
      if lanes.isEmpty then .ok (compute_rrf_scores lanes rrf_k [])
      else .error "AttributeError: list object has no attribute get"

/-- `zslice(lane_key, 0, limit-1 if limit > 0 else -1, desc)`: the stored
ranking is already score-descending. -/
def zsliceTake (ranking : List (String × ℚ)) (limit : ℤ) :
    List (String × ℚ) :=
  if limit > 0 then ranking.take limit.toNat else ranking

/-- The lane-reading loop of `blend`: resolve each source run's metadata,
require a lane run, and collect `lane_docs[run.lane] = docs`. -/
def readLanes (store : StoreM) (top_m : Dict ℤ) :
    List BlendRunInput → Dict (List (String × ℚ)) →
    Except String (Dict (List (String × ℚ)))
  | [], acc => .ok acc
  | run :: rest, acc =>
      match dictGet? store.metas run.run_id_lane with
      | none => .error ("run " ++ run.run_id_lane ++ " not found")
      | some meta =>
          if meta.run_type ≠ "lane" then
            .error ("run " ++ run.run_id_lane ++ " is not a lane run")
          else
            match meta.lane_key with
            | none => .error "KeyError: lane_key"
            | some lk =>
                readLanes store top_m rest
                  (dictSet acc run.lane
                    (zsliceTake (dictGetD store.rankings lk [])
                      (dictGetD top_m run.lane 1000)))

/-- `service.blend` up to and including its `compute_rrf_scores` call (the
furthest reachable statement when the weights argument is a list): request
validation, lane reading, and the dynamically-dispatched RRF call with
`run_weights` as a list of `(lane, weight)` pairs. The pure doc-metadata
read between those steps cannot fail and does not feed the RRF call. -/
def blendExc (store : StoreM) (runs : List BlendRunInput) (rrf_k : ℤ)
    (top_m : Dict ℤ) : Except String (Dict ℚ × Dict (Dict ℚ)) :=
  if runs.isEmpty then .error "runs required"
  else
    match readLanes store top_m runs [] with
    | .error e => .error e
    | .ok lane_docs =>
        compute_rrf_scores_dyn lane_docs rrf_k
          (.pylist (runs.map (fun r => (r.lane, r.weight))))

/-- The fallback recipe mirrored from `mutate_run`'s `.get` defaults, used
only when a fusion meta carries no recipe. -/
def mutateDefaultRecipe : Recipe :=
  { weights := []
    rrf_k := 80
    beta_fuse := 3/2
    target_profile := []
    top_m_per_lane := [("fulltext", 10000), ("semantic", 10000)]
    k_grid := [10, 20, 30, 40, 50]
    peek := none
    representatives := [] }

/-- `MCPService.mutate_run` from `service.py`, embedded through its `blend`
call: load the parent meta (404 unless a fusion run), deep-copy and overlay
the recipe, and re-invoke blend on the original source runs. The store is
threaded unchanged — no write happens before the crash point. -/
def mutate_run_exc (store : StoreM) (run_id : String) (delta : MutateDeltaM) :
    Except String (Dict ℚ × Dict (Dict ℚ)) :=
  match dictGet? store.metas run_id with
  | none => .error "fusion run not found"
  | some meta =>
      if meta.run_type ≠ "fusion" then .error "fusion run not found"
      else
        let base := meta.recipe.getD mutateDefaultRecipe
        let updated := applyDelta base delta
        blendExc store meta.source_runs updated.rrf_k updated.top_m_per_lane

/-- A store holding one lane run and one fusion run built from it, matching
the mutate-lineage scenario. -/
def mutateExampleStore : StoreM :=
  { metas :=
      [("fusion-bbbb222200",
        { run_type := "fusion"
          run_id := "fusion-bbbb222200"
          recipe := some
            { weights := [("fulltext", 1), ("semantic", 7/10)]
              rrf_k := 60
              beta_fuse := 1
              target_profile := []
              top_m_per_lane := [("fulltext", 10000), ("semantic", 10000)]
              k_grid := [10, 20, 30, 40, 50]
              peek := none
              representatives := [] }
          source_runs := [{ lane := "fulltext", run_id_lane := "fulltext-aaaa1111" }] }),
       ("fulltext-aaaa1111",
        { run_type := "lane"
          run_id := "fulltext-aaaa1111"
          lane_key := some "z:lane:h1:fulltext" })],
    rankings := [("z:lane:h1:fulltext", [("d1", 1)])] }

theorem dictGetD_dictAdd (m : Dict ℚ) (k : String) (v : ℚ) (d : String) :
    dictGetD (dictAdd m k v) d 0 = dictGetD m d 0 + (if k = d then v else 0) := by
  induction m with
  | nil => by_cases h : k = d <;> simp [dictAdd, dictGetD, dictGet?, h]
  | cons p rest ih =>
      obtain ⟨k0, w⟩ := p
      by_cases h1 : k0 = k
      · subst h1
        by_cases h2 : k0 = d <;> simp [dictAdd, dictGetD, dictGet?, h2]
      · by_cases h2 : k0 = d
        · subst h2
          have h3 : ¬(k = k0) := fun h => h1 h.symm
          simp [dictAdd, dictGetD, dictGet?, h1, h3]
        · simpa [dictAdd, dictGetD, dictGet?, h1, h2] using ih

theorem rrfDocsFold_total (role : String) (w : ℚ) (k : ℤ) (d : String) :
    ∀ (docs : List (String × ℚ)) (rank : ℕ) (st : Dict ℚ × Dict (Dict ℚ)),
      dictGetD (rrfDocsFold role w k docs rank st).1 d 0 =
        dictGetD st.1 d 0 + rankSum w k d docs rank := by
  intro docs
  induction docs with
  | nil => intro rank st; simp [rrfDocsFold, rankSum]
  | cons x rest ih =>
      intro rank st
      obtain ⟨doc, orig⟩ := x
      simp only [rrfDocsFold, rankSum]
      rw [ih, dictGetD_dictAdd]
      ring

theorem rrf_foldl_total (rrf_k : ℤ) (weights : Dict ℚ) (d : String) :
    ∀ (ls : Dict (List (String × ℚ))) (st : Dict ℚ × Dict (Dict ℚ)),
      dictGetD (ls.foldl (fun st p =>
          rrfDocsFold (if p.1 = "fulltext" then "recall" else "semantic")
            (laneWeight weights p.1) rrf_k p.2 1 st) st).1 d 0
        = dictGetD st.1 d 0 +
            (ls.map (fun p => rankSum (laneWeight weights p.1) rrf_k d p.2 1)).sum := by
  intro ls
  induction ls with
  | nil => intro st; simp
  | cons p rest ih =>
      intro st
      simp only [List.foldl_cons, List.map_cons, List.sum_cons]
      rw [ih, rrfDocsFold_total]
      ring

/-- C1: for every lane map, `rrf_k` and weights map, `compute_rrf_scores`
assigns each document the cumulative score Σ over lanes of
`weight / (rrf_k + rank)` summed over the 1-based ranks at which the document
occurs in the lane's list; and for lane A = [(d1,1.0),(d2,0.9),(d3,0.5)] and
lane B = [(d2,0.8),(d3,0.7),(d4,0.6)] with `rrf_k = 60` and weight 1 for both
lanes, sorting the scores with `sort_scores` yields d2 > d3 > d1 > d4. -/
theorem claim1_rrf_scores :
    (∀ (lanes : Dict (List (String × ℚ))) (rrf_k : ℤ) (weights : Dict ℚ)
        (d : String),
        dictGetD (compute_rrf_scores lanes rrf_k weights).1 d 0 =
          rrfReferenceTotal lanes rrf_k weights d)
    ∧ (sort_scores (compute_rrf_scores
          [("A", [("d1", 1), ("d2", 9/10), ("d3", 1/2)]),
           ("B", [("d2", 4/5), ("d3", 7/10), ("d4", 3/5)])]
          60 [("A", 1), ("B", 1)]).1).map Prod.fst = ["d2", "d3", "d1", "d4"] := by
  constructor
  · intro lanes rrf_k weights d
    unfold compute_rrf_scores rrfReferenceTotal
    rw [rrf_foldl_total]
    simp [dictGetD, dictGet?]
  · simp only [compute_rrf_scores, rrfDocsFold, dictAdd, dictAdd2, dictGetD,
      dictGet?, laneWeight, sort_scores, List.foldl, List.foldr]
    norm_num [insertDesc]

/-- C5 (counterexample): the claim predicts that any string longer than a
positive cap is cut to its first `cap − 3` characters followed by `"..."`;
but at cap = 2 the code returns the first 2 characters with no ellipsis. -/
theorem claim5_truncate_counterexample :
    truncate_field "hello" 2 = "he" ∧
      truncate_field "hello" 2 ≠ "hello".take ((2 - 3 : ℤ)).toNat ++ "..." := by
  constructor <;> decide

/-- C5 (amended): `truncate_field` returns the empty string when the cap is
≤ 0, the string unchanged when its length does not exceed the cap, the first
`cap − 3` characters followed by `"..."` when the cap exceeds 3, and the first
`cap` characters with no ellipsis when `0 < cap ≤ 3`. -/
theorem claim5_truncate_field_spec (value : String) (cap : ℤ) :
    truncate_field value cap =
      if cap ≤ 0 then ""
      else if (value.length : ℤ) ≤ cap then value
      else if 3 < cap then value.take (cap - 3).toNat ++ "..."
      else value.take cap.toNat := by
  unfold truncate_field
  by_cases h1 : cap ≤ 0
  · simp [h1]
  · by_cases h2 : (value.length : ℤ) ≤ cap
    · simp [h1, h2]
    · by_cases h3 : 3 < cap <;> simp [h1, h2, h3]
      congr 2
      have h4 : ("..." : String).length = 3 := rfl
      rw [h4]
      omega

theorem char_ofNat_toNat_upper (n : ℕ) (h1 : 65 ≤ n) (h2 : n ≤ 90) :
    (Char.ofNat n).toNat = n := by
  interval_cases n <;> decide

theorem pyUpper_toNat (c : Char) (h : 97 ≤ c.toNat ∧ c.toNat ≤ 122) :
    (pyUpper c).toNat = c.toNat - 32 := by
  unfold pyUpper
  rw [if_pos h]
  exact char_ofNat_toNat_upper _ (by omega) (by omega)

theorem pyUpper_fix (c : Char) (h : ¬(97 ≤ c.toNat ∧ c.toNat ≤ 122)) :
    pyUpper c = c := by
  unfold pyUpper
  rw [if_neg h]

theorem pyUpper_idem (c : Char) : pyUpper (pyUpper c) = pyUpper c := by
  by_cases h : 97 ≤ c.toNat ∧ c.toNat ≤ 122
  · have hn : (pyUpper c).toNat = c.toNat - 32 := pyUpper_toNat c h
    exact pyUpper_fix _ (by omega)
  · rw [pyUpper_fix c h]
    exact pyUpper_fix c h

theorem pyIsSpace_pyUpper (c : Char) : pyIsSpace (pyUpper c) = pyIsSpace c := by
  by_cases h : 97 ≤ c.toNat ∧ c.toNat ≤ 122
  · have hn : (pyUpper c).toNat = c.toNat - 32 := pyUpper_toNat c h
    simp only [pyIsSpace, hn, decide_eq_decide]
    omega
  · rw [pyUpper_fix c h]

theorem pyIsAlpha_eq_false_of_digit (c : Char) (h : pyIsDigit c = true) :
    pyIsAlpha c = false := by
  simp only [pyIsDigit, decide_eq_true_eq] at h
  simp only [pyIsAlpha, decide_eq_false_iff_not]
  omega

theorem pyIsSpace_eq_false_of_digit (c : Char) (h : pyIsDigit c = true) :
    pyIsSpace c = false := by
  simp only [pyIsDigit, decide_eq_true_eq] at h
  simp only [pyIsSpace, decide_eq_false_iff_not]
  omega

theorem dropWhile_space_map_pyUpper (l : List Char) :
    List.dropWhile pyIsSpace (l.map pyUpper) =
      (List.dropWhile pyIsSpace l).map pyUpper := by
  rw [List.dropWhile_map]
  have h : pyIsSpace ∘ pyUpper = pyIsSpace := funext pyIsSpace_pyUpper
  rw [h]

theorem rdropWhile_space_map_pyUpper (l : List Char) :
    List.rdropWhile pyIsSpace (l.map pyUpper) =
      (List.rdropWhile pyIsSpace l).map pyUpper := by
  unfold List.rdropWhile
  rw [← List.map_reverse, dropWhile_space_map_pyUpper, List.map_reverse]

theorem pyStrip_map_pyUpper (l : List Char) :
    pyStrip (l.map pyUpper) = (pyStrip l).map pyUpper := by
  unfold pyStrip
  rw [dropWhile_space_map_pyUpper, rdropWhile_space_map_pyUpper]

/-- `List.rdropWhile p l` is a prefix of `l`. -/
theorem rdropWhile_front {α : Type} (p : α → Bool) (l : List α) :
    ∃ t, List.rdropWhile p l ++ t = l := by
  have h := List.dropWhile_suffix (l := l.reverse) p
  obtain ⟨t, ht⟩ := h
  refine ⟨t.reverse, ?_⟩
  have := congrArg List.reverse ht
  simpa [List.rdropWhile] using this

theorem dropWhile_head_false {α : Type} (p : α → Bool) (a : α) (l : List α)
    (h : List.dropWhile p (a :: l) = a :: l) : p a = false := by
  by_cases hp : p a = true
  · rw [List.dropWhile_cons, if_pos hp] at h
    have hsuff := List.dropWhile_suffix (l := l) p
    obtain ⟨t, ht⟩ := hsuff
    have hlen := congrArg List.length ht
    have hlen2 := congrArg List.length h
    simp at hlen hlen2
    omega
  · simpa using hp

theorem dropWhile_rdropWhile_self {α : Type} (p : α → Bool) (y : List α)
    (h : List.dropWhile p y = y) :
    List.dropWhile p (List.rdropWhile p y) = List.rdropWhile p y := by
  obtain ⟨t, ht⟩ := rdropWhile_front p y
  cases hr : List.rdropWhile p y with
  | nil => simp
  | cons a w =>
      rw [hr] at ht
      have hy : y = a :: (w ++ t) := by rw [← ht]; simp
      rw [hy] at h
      have ha := dropWhile_head_false p a (w ++ t) h
      rw [List.dropWhile_cons, if_neg (by simp [ha])]

theorem pyStrip_idem (l : List Char) : pyStrip (pyStrip l) = pyStrip l := by
  unfold pyStrip
  rw [dropWhile_rdropWhile_self pyIsSpace _ (List.dropWhile_idempotent _ _),
    List.rdropWhile_idempotent]

theorem pyStrip_pyStrip_map (l : List Char) :
    pyStrip ((pyStrip l).map pyUpper) = (pyStrip l).map pyUpper := by
  rw [pyStrip_map_pyUpper, pyStrip_idem]

theorem map_pyUpper_map (l : List Char) :
    (l.map pyUpper).map pyUpper = l.map pyUpper := by
  rw [List.map_map]
  have h : pyUpper ∘ pyUpper = pyUpper := funext pyUpper_idem
  rw [h]

theorem stripEdition_of_cond (l : List Char) (a b : Char) (rest : List Char)
    (hr : l.reverse = a :: b :: rest) (hc : (pyIsAlpha a && pyIsDigit b) = true) :
    stripEdition l = (b :: rest).reverse := by
  unfold stripEdition
  rw [hr]
  simp [hc]

theorem stripEdition_fix_of_digit_last (l : List Char) (b : Char)
    (rest : List Char) (hr : l.reverse = b :: rest) (hb : pyIsDigit b = true) :
    stripEdition l = l := by
  unfold stripEdition
  rw [hr]
  cases rest with
  | nil => rfl
  | cons b2 r2 => simp [pyIsAlpha_eq_false_of_digit b hb]

theorem pyStrip_eq_self_split (y : List Char) (h : pyStrip y = y) :
    List.dropWhile pyIsSpace y = y ∧ List.rdropWhile pyIsSpace y = y := by
  unfold pyStrip at h
  obtain ⟨t1, ht1⟩ := List.dropWhile_suffix (l := y) pyIsSpace
  obtain ⟨t2, ht2⟩ := rdropWhile_front pyIsSpace (List.dropWhile pyIsSpace y)
  have l1 := congrArg List.length ht1
  have l2 := congrArg List.length ht2
  have l3 := congrArg List.length h
  simp only [List.length_append] at l1 l2 l3
  have ht1len : t1.length = 0 := by omega
  rw [List.length_eq_zero] at ht1len
  subst ht1len
  simp only [List.nil_append] at ht1
  refine ⟨ht1, ?_⟩
  rw [ht1] at h
  exact h

theorem normFiChars_fix (x : List Char) (hne : x ≠ []) (hstrip : pyStrip x = x)
    (hmap : x.map pyUpper = x) (hse : stripEdition x = x) : normFiChars x = x := by
  unfold normFiChars
  rw [hstrip, if_neg hne, hmap, hse]

theorem normFiChars_idem (l : List Char) :
    normFiChars (normFiChars l) = normFiChars l := by
  by_cases hc : pyStrip l = []
  · unfold normFiChars
    rw [hc]
    simp [pyStrip, List.rdropWhile]
  · have hval : normFiChars l = stripEdition ((pyStrip l).map pyUpper) := by
      unfold normFiChars
      rw [if_neg hc]
    have hstrip_up : pyStrip ((pyStrip l).map pyUpper) = (pyStrip l).map pyUpper :=
      pyStrip_pyStrip_map l
    have hmap_up : ((pyStrip l).map pyUpper).map pyUpper = (pyStrip l).map pyUpper :=
      map_pyUpper_map (pyStrip l)
    have hup_ne : (pyStrip l).map pyUpper ≠ [] := by
      simpa using hc
    set up := (pyStrip l).map pyUpper with hup_def
    cases hr : up.reverse with
    | nil =>
        exact absurd (by simpa using congrArg List.reverse hr) hup_ne
    | cons a tail =>
        cases tail with
        | nil =>
            have hse : stripEdition up = up := by
              unfold stripEdition
              rw [hr]
            rw [hval, hse]
            exact normFiChars_fix up hup_ne hstrip_up hmap_up hse
        | cons b rest =>
            by_cases hcond : (pyIsAlpha a && pyIsDigit b) = true
            · have hb : pyIsDigit b = true := by
                simp only [Bool.and_eq_true] at hcond
                exact hcond.2
              have hres : stripEdition up = (b :: rest).reverse :=
                stripEdition_of_cond up a b rest hr hcond
              have hup_eq : up = (b :: rest).reverse ++ [a] := by
                have := congrArg List.reverse hr
                simpa [List.reverse_cons] using this
              have hsplit := pyStrip_eq_self_split up hstrip_up
              -- rdropWhile fixes the candidate: its last char is the digit b
              have hrd : List.rdropWhile pyIsSpace ((b :: rest).reverse) =
                  (b :: rest).reverse := by
                rw [List.reverse_cons]
                exact List.rdropWhile_concat_neg _ _ _
                  (by simp [pyIsSpace_eq_false_of_digit b hb])
              -- dropWhile fixes the candidate: its head is the head of up
              have hdw : List.dropWhile pyIsSpace ((b :: rest).reverse) =
                  (b :: rest).reverse := by
                cases hcand : (b :: rest).reverse with
                | nil => rfl
                | cons c w =>
                    have hup2 : up = c :: (w ++ [a]) := by
                      rw [hup_eq, hcand]
                      simp
                    have hdw_up := hsplit.1
                    rw [hup2] at hdw_up
                    have hcfalse := dropWhile_head_false _ _ _ hdw_up
                    rw [List.dropWhile_cons, if_neg (by simp [hcfalse])]
              have hstrip_res : pyStrip ((b :: rest).reverse) = (b :: rest).reverse := by
                unfold pyStrip
                rw [hdw, hrd]
              have hmap_res : ((b :: rest).reverse).map pyUpper = (b :: rest).reverse := by
                have h1 : up.map pyUpper = up := hmap_up
                rw [hup_eq] at h1
                rw [List.map_append] at h1
                have h2 := List.append_inj h1 (by simp)
                exact h2.1
              have hse_res : stripEdition ((b :: rest).reverse) = (b :: rest).reverse :=
                stripEdition_fix_of_digit_last _ b rest (List.reverse_reverse _) hb
              have hne_res : (b :: rest).reverse ≠ [] := by simp
              rw [hval, hres]
              exact normFiChars_fix _ hne_res hstrip_res hmap_res hse_res
            · have hse : stripEdition up = up := by
                unfold stripEdition
                rw [hr]
                simp [hcond]
              rw [hval, hse]
              exact normFiChars_fix up hup_ne hstrip_up hmap_up hse

/-- C8: `normalize_fi_subgroup` is idempotent, maps `"H04L1/00"` to itself
unchanged, and strips the trailing single alphabetic edition letter whenever
the stripped upper-cased code ends in a letter preceded by a digit. -/
theorem claim8_normalize_fi_idempotent :
    (∀ s : String,
        normalize_fi_subgroup (normalize_fi_subgroup s) = normalize_fi_subgroup s)
    ∧ normalize_fi_subgroup "H04L1/00" = "H04L1/00"
    ∧ ∀ (s : String) (a b : Char) (rest : List Char),
        ((pyStrip s.data).map pyUpper).reverse = a :: b :: rest →
        pyIsAlpha a = true → pyIsDigit b = true →
        normalize_fi_subgroup s = ⟨(b :: rest).reverse⟩ := by
  refine ⟨fun s => ?_, by decide, fun s a b rest hr ha hb => ?_⟩
  · show (⟨normFiChars (normFiChars s.data)⟩ : String) = ⟨normFiChars s.data⟩
    rw [normFiChars_idem]
  · unfold normalize_fi_subgroup
    congr 1
    have hne : pyStrip s.data ≠ [] := by
      intro h
      rw [h] at hr
      simp at hr
    unfold normFiChars
    rw [if_neg hne]
    exact stripEdition_of_cond _ a b rest hr (by simp [ha, hb])

/-- Witness for C8: at `"G06V10/82A"` the stripping clause applies and the
trailing edition letter `A` is removed. -/
theorem claim8_witness :
    normalize_fi_subgroup "G06V10/82A" = "G06V10/82" :=
  (claim8_normalize_fi_idempotent.2.2 "G06V10/82A" 'A' '2'
      ['8', '/', '0', '1', 'V', '6', '0', 'G'] (by decide) (by decide)
      (by decide)).trans (by decide)

theorem encodedLen_pos (item : Item) : 0 < encodedLen item := by
  unfold encodedLen jsonDumpsChars utf8Len
  simp only [List.map_cons, List.sum_cons]
  have := Char.utf8Size_pos lbrace
  omega

theorem capByBudgetGo_spec (budget : ℤ) :
    ∀ (items : List Item) (used : ℕ),
      ∃ t, (capByBudgetGo budget items used).1 ++ t = items ∧
        ((capByBudgetGo budget items used).2.2 = true ↔ t ≠ []) ∧
        (∀ h : t ≠ [],
          ((capByBudgetGo budget items used).2.1 : ℤ) +
            encodedLen (t.head h) > budget) ∧
        (capByBudgetGo budget items used).2.1 =
          used + (((capByBudgetGo budget items used).1).map encodedLen).sum ∧
        ((capByBudgetGo budget items used).2.1 = used ∨
          ((capByBudgetGo budget items used).2.1 : ℤ) ≤ budget) := by
  intro items
  induction items with
  | nil =>
      intro used
      refine ⟨[], ?_, ?_, ?_, ?_, ?_⟩ <;> simp [capByBudgetGo]
  | cons item rest ih =>
      intro used
      by_cases hb : (used : ℤ) + encodedLen item > budget
      · refine ⟨item :: rest, ?_, ?_, ?_, ?_, ?_⟩ <;>
          simp [capByBudgetGo, hb]
      · obtain ⟨t, ht1, ht2, ht3, ht4, ht5⟩ := ih (used + encodedLen item)
        refine ⟨t, ?_, ?_, ?_, ?_, ?_⟩
        · simp only [capByBudgetGo, if_neg hb, List.cons_append, ht1]
        · simpa only [capByBudgetGo, if_neg hb] using ht2
        · simpa only [capByBudgetGo, if_neg hb] using ht3
        · simp only [capByBudgetGo, if_neg hb, List.map_cons, List.sum_cons]
          omega
        · simp only [capByBudgetGo, if_neg hb]
          rcases ht5 with h | h
          · right
            rw [h]
            push_neg at hb
            exact_mod_cast hb
          · right
            exact h

/-- C6 (amended): `cap_by_budget` returns a prefix of its input whose
`used_bytes` is the sum of the JSON-encoded UTF-8 byte lengths of the
returned items; it stops exactly before the first item that would push the
total over the budget, `truncated` is true exactly when some input item was
not returned, and `used_bytes ≤ budget_bytes` holds whenever the budget is
non-negative — in particular whenever at least one item is returned. -/
theorem claim6_cap_by_budget_spec (items : List Item) (budget : ℤ) :
    (∃ t, (cap_by_budget items budget).1 ++ t = items ∧
        ((cap_by_budget items budget).2.2 = true ↔ t ≠ []) ∧
        (∀ h : t ≠ [],
          ((cap_by_budget items budget).2.1 : ℤ) +
            encodedLen (t.head h) > budget))
    ∧ (cap_by_budget items budget).2.1 =
        (((cap_by_budget items budget).1).map encodedLen).sum
    ∧ (0 ≤ budget → ((cap_by_budget items budget).2.1 : ℤ) ≤ budget)
    ∧ ((cap_by_budget items budget).1 ≠ [] →
        ((cap_by_budget items budget).2.1 : ℤ) ≤ budget) := by
  obtain ⟨t, h1, h2, h3, h4, h5⟩ := capByBudgetGo_spec budget items 0
  refine ⟨⟨t, h1, h2, h3⟩, by simpa using h4, ?_, ?_⟩
  · intro hb
    rcases h5 with h | h
    · show ((capByBudgetGo budget items 0).2.1 : ℤ) ≤ budget
      rw [h]
      exact_mod_cast hb
    · exact h
  · intro hne
    rcases h5 with h | h
    · exfalso
      have h4' : (capByBudgetGo budget items 0).2.1 =
          (((capByBudgetGo budget items 0).1).map encodedLen).sum := by
        simpa using h4
      cases hres : (capByBudgetGo budget items 0).1 with
      | nil => exact hne hres
      | cons x xs =>
          rw [hres] at h4'
          have := encodedLen_pos x
          simp only [List.map_cons, List.sum_cons] at h4'
          rw [h] at h4'
          omega
    · exact h

/-- C6 (counterexample): with a negative budget the code returns
`used_bytes = 0`, which exceeds the budget, so "used_bytes ≤ budget_bytes
always holds" fails as stated. -/
theorem claim6_counterexample :
    cap_by_budget [[("id", "d1")]] (-1) = ([], 0, true) ∧
      ¬(((cap_by_budget [[("id", "d1")]] (-1)).2.1 : ℤ) ≤ -1) := by
  constructor <;> decide

/-- Witness for C6: at a budget of 20 bytes only the first of two 12-byte
items fits, and the bound `used_bytes ≤ budget_bytes` holds. -/
theorem claim6_witness :
    (0 : ℤ) ≤ 20 ∧
      ((cap_by_budget [[("id", "d1")], [("id", "d2")]] 20).2.1 : ℤ) ≤ 20 :=
  ⟨by decide,
    (claim6_cap_by_budget_spec [[("id", "d1")], [("id", "d2")]] 20).2.2.1
      (by decide)⟩

theorem roundHalfEven_le_floor_add_one (q : ℚ) : roundHalfEven q ≤ ⌊q⌋ + 1 := by
  unfold roundHalfEven
  split_ifs <;> omega

theorem floor_le_roundHalfEven (q : ℚ) : ⌊q⌋ ≤ roundHalfEven q := by
  unfold roundHalfEven
  split_ifs <;> omega

theorem roundHalfEven_mono (p q : ℚ) (h : p ≤ q) :
    roundHalfEven p ≤ roundHalfEven q := by
  by_cases hf : ⌊p⌋ = ⌊q⌋
  · unfold roundHalfEven
    rw [hf]
    have hpq : p - (⌊q⌋ : ℚ) ≤ q - (⌊q⌋ : ℚ) := by linarith
    split_ifs <;> first | omega | linarith
  · have h1 := roundHalfEven_le_floor_add_one p
    have h2 := floor_le_roundHalfEven q
    have h3 : ⌊p⌋ < ⌊q⌋ := lt_of_le_of_ne (Int.floor_mono h) hf
    omega

theorem round3_mono (p q : ℚ) (h : p ≤ q) : round3 p ≤ round3 q := by
  unfold round3
  have h2 : ((roundHalfEven (p * 1000) : ℚ)) ≤ (roundHalfEven (q * 1000) : ℚ) := by
    exact_mod_cast roundHalfEven_mono _ _ (by linarith)
  exact div_le_div_of_nonneg_right h2 (by norm_num)

theorem compute_frontier_mem (ordered : List String) (k_grid : List ℤ)
    (pi_scores : Dict ℚ) (beta_fuse : ℚ) (e : BlendFrontierEntry)
    (he : e ∈ compute_frontier ordered k_grid pi_scores beta_fuse) :
    ∃ n : ℕ, 1 ≤ n ∧ n ≤ ordered.length ∧
      e = frontierEntry ordered pi_scores beta_fuse n := by
  unfold compute_frontier at he
  by_cases hord : ordered = []
  · rw [if_pos hord] at he
    simp at he
  · rw [if_neg hord] at he
    induction k_grid with
    | nil => simp at he
    | cons k ks ih =>
        rw [List.foldr_cons] at he
        by_cases hk : k ≤ 0
        · rw [if_pos hk] at he
          exact ih he
        · rw [if_neg hk] at he
          by_cases hemp : ordered.take (min k.toNat ordered.length) = []
          · rw [if_pos hemp] at he
            exact ih he
          · rw [if_neg hemp] at he
            rcases List.mem_cons.mp he with hhd | htl
            · refine ⟨min k.toNat ordered.length, ?_, ?_, hhd⟩
              · have hlen : ordered.length ≠ 0 := fun h =>
                  hord (List.length_eq_zero.mp h)
                omega
              · omega
            · exact ih htl

theorem frontierEntry_k (ordered : List String) (pi_scores : Dict ℚ)
    (beta_fuse : ℚ) (n : ℕ) (hn : n ≤ ordered.length) :
    (frontierEntry ordered pi_scores beta_fuse n).k = n := by
  show (ordered.take n).length = n
  rw [List.length_take]
  omega

theorem frontierUniform_nonneg (ordered : List String) (pi_scores : Dict ℚ)
    (hpi : ∀ d ∈ ordered, 0 ≤ dictGetD pi_scores d 0) (d : String) :
    0 ≤ frontierUniform ordered pi_scores d := by
  unfold frontierUniform
  split_ifs with h1
  · by_cases hd : d ∈ ordered <;> simp [hd]
  · by_cases hd : d ∈ ordered <;> simp [hd]
    exact hpi d hd

theorem frontier_sumTop_mono (ordered : List String) (pi_scores : Dict ℚ)
    (hpi : ∀ d ∈ ordered, 0 ≤ dictGetD pi_scores d 0) (n1 n2 : ℕ)
    (h : n1 ≤ n2) :
    frontierSumTop ordered pi_scores n1 ≤ frontierSumTop ordered pi_scores n2 := by
  unfold frontierSumTop
  have heq : ordered.take n1 = (ordered.take n2).take n1 := by
    rw [List.take_take, min_eq_left h]
  have hsub : List.Sublist (ordered.take n1) (ordered.take n2) := by
    rw [heq]
    exact List.take_sublist _ _
  refine (hsub.map (frontierUniform ordered pi_scores)).sum_le_sum ?_
  intro x hx
  obtain ⟨d, _, rfl⟩ := List.mem_map.mp hx
  exact frontierUniform_nonneg ordered pi_scores hpi d

/-- C9: for a fixed ordered document list, π' scores (which are non-negative:
π' values come from a logistic transform) and β, the recall values reported by
`compute_frontier` are monotonically non-decreasing in the cut-off: any two
frontier entries with `k₁ ≤ k₂` report `recall(k₁) ≤ recall(k₂)`. -/
theorem claim9_frontier_recall_monotone (ordered : List String)
    (k_grid : List ℤ) (pi_scores : Dict ℚ) (beta_fuse : ℚ)
    (hpi : ∀ d ∈ ordered, 0 ≤ dictGetD pi_scores d 0) :
    ∀ e1 ∈ compute_frontier ordered k_grid pi_scores beta_fuse,
      ∀ e2 ∈ compute_frontier ordered k_grid pi_scores beta_fuse,
        e1.k ≤ e2.k → e1.R_star ≤ e2.R_star := by
  intro e1 he1 e2 he2 hk
  obtain ⟨n1, hn11, hn12, rfl⟩ := compute_frontier_mem _ _ _ _ _ he1
  obtain ⟨n2, hn21, hn22, rfl⟩ := compute_frontier_mem _ _ _ _ _ he2
  rw [frontierEntry_k _ _ _ _ hn12, frontierEntry_k _ _ _ _ hn22] at hk
  show round3 (frontierRecall ordered pi_scores n1) ≤
    round3 (frontierRecall ordered pi_scores n2)
  apply round3_mono
  unfold frontierRecall
  by_cases ht : 0 < frontierTotal ordered pi_scores
  · rw [if_pos ht, if_pos ht]
    exact div_le_div_of_nonneg_right
      (frontier_sumTop_mono _ _ hpi _ _ hk) ht.le
  · rw [if_neg ht, if_neg ht]

/-- Witness for C9: on the ranking `[d1, d2]` with π' = ½ for both documents,
the recall reported at k = 1 is at most the recall reported at k = 2. -/
theorem claim9_witness :
    (frontierEntry ["d1", "d2"] [("d1", 1/2), ("d2", 1/2)] 1 1).R_star ≤
      (frontierEntry ["d1", "d2"] [("d1", 1/2), ("d2", 1/2)] 1 2).R_star := by
  have hm1 : frontierEntry ["d1", "d2"] [("d1", (1:ℚ)/2), ("d2", 1/2)] 1 1 ∈
      compute_frontier ["d1", "d2"] [1, 2] [("d1", 1/2), ("d2", 1/2)] 1 := by
    simp [compute_frontier]
  have hm2 : frontierEntry ["d1", "d2"] [("d1", (1:ℚ)/2), ("d2", 1/2)] 1 2 ∈
      compute_frontier ["d1", "d2"] [1, 2] [("d1", 1/2), ("d2", 1/2)] 1 := by
    simp [compute_frontier]
  exact claim9_frontier_recall_monotone _ _ _ _
    (by norm_num [dictGetD, dictGet?]) _ hm1 _ hm2
    (by rw [frontierEntry_k _ _ _ _ (by norm_num),
          frontierEntry_k _ _ _ _ (by norm_num)]
        norm_num)

theorem frontier_mem_of_grid (ordered : List String) (k_grid : List ℤ)
    (pi_scores : Dict ℚ) (beta_fuse : ℚ) (k : ℤ)
    (hk : k ∈ k_grid) (hkpos : 0 < k) (hord : ordered ≠ []) :
    frontierEntry ordered pi_scores beta_fuse (min k.toNat ordered.length) ∈
      compute_frontier ordered k_grid pi_scores beta_fuse := by
  unfold compute_frontier
  rw [if_neg hord]
  induction k_grid with
  | nil => simp at hk
  | cons k0 ks ih =>
      rw [List.foldr_cons]
      rcases List.mem_cons.mp hk with heq | htl
      · subst heq
        rw [if_neg (by omega : ¬k ≤ 0)]
        have hlen0 : ordered.length ≠ 0 := fun h =>
          hord (List.length_eq_zero.mp h)
        have hne : ordered.take (min k.toNat ordered.length) ≠ [] := by
          rw [Ne, List.take_eq_nil_iff]
          push_neg
          exact ⟨by omega, hord⟩
        rw [if_neg hne]
        exact List.mem_cons_self _ _
      · have hmem := ih htl
        by_cases h0 : k0 ≤ 0
        · rw [if_pos h0]
          exact hmem
        · rw [if_neg h0]
          by_cases hemp : ordered.take (min k0.toNat ordered.length) = []
          · rw [if_pos hemp]
            exact hmem
          · rw [if_neg hemp]
            exact List.mem_cons_of_mem _ hmem

/-- C2 (amended): for every non-empty fused ordering with positive π' mass,
every grid value `k` with `0 < k ≤` the number of ranked documents, every π'
map and every β, `compute_frontier` emits for `k` the entry whose fields are
the 3-decimal roundings of `precision = sum_top/k`,
`recall = sum_top/Σ π'` and `Fβ = (1+β²)PR/(β²P+R)` (0 at P = R = 0). -/
theorem claim2_frontier_entry (ordered : List String) (k_grid : List ℤ)
    (pi_scores : Dict ℚ) (beta_fuse : ℚ) (k : ℤ)
    (hmass : 0 < claimedPiMass ordered pi_scores)
    (hk : k ∈ k_grid) (hkpos : 0 < k) (hklen : k.toNat ≤ ordered.length) :
    (⟨k.toNat,
        round3 (claimedSumTop ordered pi_scores k.toNat / (k.toNat : ℚ)),
        round3 (claimedSumTop ordered pi_scores k.toNat /
          claimedPiMass ordered pi_scores),
        round3 (claimedFBeta beta_fuse
          (claimedSumTop ordered pi_scores k.toNat / (k.toNat : ℚ))
          (claimedSumTop ordered pi_scores k.toNat /
            claimedPiMass ordered pi_scores))⟩ : BlendFrontierEntry) ∈
      compute_frontier ordered k_grid pi_scores beta_fuse := by
  have hord : ordered ≠ [] := by
    intro h
    rw [h] at hklen
    simp at hklen
    omega
  have hmass' : ¬((ordered.map (fun d => dictGetD pi_scores d 0)).sum ≤ 0) := by
    unfold claimedPiMass at hmass
    linarith
  have hsum : frontierSumTop ordered pi_scores k.toNat =
      claimedSumTop ordered pi_scores k.toNat := by
    unfold frontierSumTop claimedSumTop frontierUniform
    rw [if_neg hmass']
    refine congrArg List.sum (List.map_congr_left ?_)
    intro d hd
    rw [if_pos (List.mem_of_mem_take hd)]
  have htot : frontierTotal ordered pi_scores =
      claimedPiMass ordered pi_scores := by
    unfold frontierTotal claimedPiMass
    rw [if_neg hmass']
  have hlen : (ordered.take k.toNat).length = k.toNat := by
    rw [List.length_take]
    omega
  have hP : frontierPrecision ordered pi_scores k.toNat =
      claimedSumTop ordered pi_scores k.toNat / (k.toNat : ℚ) := by
    unfold frontierPrecision
    rw [hsum, hlen]
  have hR : frontierRecall ordered pi_scores k.toNat =
      claimedSumTop ordered pi_scores k.toNat /
        claimedPiMass ordered pi_scores := by
    unfold frontierRecall
    rw [if_pos (htot ▸ hmass), hsum, htot]
  have hF : frontierFBeta ordered pi_scores beta_fuse k.toNat =
      claimedFBeta beta_fuse
        (claimedSumTop ordered pi_scores k.toNat / (k.toNat : ℚ))
        (claimedSumTop ordered pi_scores k.toNat /
          claimedPiMass ordered pi_scores) := by
    unfold frontierFBeta claimedFBeta
    rw [hP, hR]
  have hE : frontierEntry ordered pi_scores beta_fuse k.toNat =
      ⟨k.toNat,
        round3 (claimedSumTop ordered pi_scores k.toNat / (k.toNat : ℚ)),
        round3 (claimedSumTop ordered pi_scores k.toNat /
          claimedPiMass ordered pi_scores),
        round3 (claimedFBeta beta_fuse
          (claimedSumTop ordered pi_scores k.toNat / (k.toNat : ℚ))
          (claimedSumTop ordered pi_scores k.toNat /
            claimedPiMass ordered pi_scores))⟩ := by
    unfold frontierEntry
    rw [hlen, hP, hR, hF]
  have h := frontier_mem_of_grid ordered k_grid pi_scores beta_fuse k
    hk hkpos hord
  rw [min_eq_left hklen, hE] at h
  exact h

/-- C2 (counterexample): on ordering [d1, d2, d3] with π' = 1 only on `d1`
and grid value 3, the claim's exact precision `sum_top / k` is 1/3, but the
entry produced by `compute_frontier` stores the 3-decimal rounding
333/1000 ≠ 1/3. -/
theorem claim2_counterexample :
    (compute_frontier ["d1", "d2", "d3"] [3]
        [("d1", 1), ("d2", 0), ("d3", 0)] 1).map BlendFrontierEntry.P_star =
      [333/1000] ∧
    claimedSumTop ["d1", "d2", "d3"] [("d1", 1), ("d2", 0), ("d3", 0)] 3 / 3 =
      1/3 ∧
    ((333 : ℚ)/1000) ≠ 1/3 := by
  have h1 : dictGetD [("d1", (1:ℚ)), ("d2", 0), ("d3", 0)] "d1" 0 = 1 := by
    decide
  have h2 : dictGetD [("d1", (1:ℚ)), ("d2", 0), ("d3", 0)] "d2" 0 = 0 := by
    decide
  have h3 : dictGetD [("d1", (1:ℚ)), ("d2", 0), ("d3", 0)] "d3" 0 = 0 := by
    decide
  have hfr : compute_frontier ["d1", "d2", "d3"] [3]
      [("d1", 1), ("d2", 0), ("d3", 0)] 1 =
      [frontierEntry ["d1", "d2", "d3"] [("d1", 1), ("d2", 0), ("d3", 0)] 1 3] := by
    simp [compute_frontier]
  have hsum : frontierSumTop ["d1", "d2", "d3"]
      [("d1", 1), ("d2", 0), ("d3", 0)] 3 = 1 := by
    simp [frontierSumTop, frontierUniform, h1, h2, h3]
    try norm_num [h1, h2, h3]
  have hP : frontierPrecision ["d1", "d2", "d3"]
      [("d1", 1), ("d2", 0), ("d3", 0)] 3 = 1/3 := by
    unfold frontierPrecision
    rw [hsum]
    norm_num
  have hr3 : round3 (1/3 : ℚ) = 333/1000 := by
    unfold round3 roundHalfEven
    norm_num [Int.fract]
  refine ⟨?_, ?_, by norm_num⟩
  · rw [hfr]
    show [round3 (frontierPrecision ["d1", "d2", "d3"]
      [("d1", 1), ("d2", 0), ("d3", 0)] 3)] = [333/1000]
    rw [hP, hr3]
  · simp [claimedSumTop, h1, h2, h3]
    try norm_num [h1, h2, h3]

/-- Witness for C2: on the ordering [d1, d2, d3, d4] with
π' = {d1:1, d2:0, d3:1, d4:0} and β = 1, the k = 2 entry has
P = 0.5, R = 0.5 and Fβ = 0.5. -/
theorem claim2_witness :
    (⟨2, 1/2, 1/2, 1/2⟩ : BlendFrontierEntry) ∈
      compute_frontier ["d1", "d2", "d3", "d4"] [2]
        [("d1", 1), ("d2", 0), ("d3", 1), ("d4", 0)] 1 := by
  have g1 : dictGetD [("d1", (1:ℚ)), ("d2", 0), ("d3", 1), ("d4", 0)] "d1" 0 = 1 := by
    decide
  have g2 : dictGetD [("d1", (1:ℚ)), ("d2", 0), ("d3", 1), ("d4", 0)] "d2" 0 = 0 := by
    decide
  have g3 : dictGetD [("d1", (1:ℚ)), ("d2", 0), ("d3", 1), ("d4", 0)] "d3" 0 = 1 := by
    decide
  have g4 : dictGetD [("d1", (1:ℚ)), ("d2", 0), ("d3", 1), ("d4", 0)] "d4" 0 = 0 := by
    decide
  have hmass : claimedPiMass ["d1", "d2", "d3", "d4"]
      [("d1", 1), ("d2", 0), ("d3", 1), ("d4", 0)] = 2 := by
    simp [claimedPiMass, g1, g2, g3, g4]
    try norm_num [g1, g2, g3, g4]
  have h := claim2_frontier_entry ["d1", "d2", "d3", "d4"] [2]
      [("d1", 1), ("d2", 0), ("d3", 1), ("d4", 0)] 1 2
      (by rw [hmass]; norm_num) (by simp) (by norm_num) (by simp)
  simp only [Int.toNat_ofNat] at h
  push_cast at h
  have hsum : claimedSumTop ["d1", "d2", "d3", "d4"]
      [("d1", 1), ("d2", 0), ("d3", 1), ("d4", 0)] 2 = 1 := by
    simp [claimedSumTop, g1, g2]
    try norm_num [g1, g2]
  rw [hsum, hmass] at h
  have hhalf : claimedFBeta 1 ((1:ℚ)/2) (1/2) = 1/2 := by
    unfold claimedFBeta
    norm_num
  have hr2 : round3 ((1:ℚ)/2) = 1/2 := by
    unfold round3 roundHalfEven
    norm_num [Int.fract]
  rw [hhalf, hr2] at h
  exact h

theorem foldl_max_mem (l : List ℚ) (a : ℚ) :
    l.foldl max a = a ∨ l.foldl max a ∈ l := by
  induction l generalizing a with
  | nil => left; rfl
  | cons x xs ih =>
      simp only [List.foldl_cons]
      rcases ih (max a x) with h | h
      · rcases max_choice a x with hm | hm
        · left
          rw [h, hm]
        · right
          rw [h, hm]
          exact List.mem_cons_self x xs
      · right
        exact List.mem_cons_of_mem _ h

theorem codeMaxOverlap_eq (doc_meta : Dict DocMeta)
    (target_profile : Dict (Dict ℚ)) :
    (doc_meta.map (fun p => (p.1,
        rawCodeScore (build_fi_profiles (dictGet? target_profile "fi")).1
          target_profile p.2))).foldl (fun m p => max m p.2) 0 =
      codeMaxOverlap doc_meta target_profile := by
  unfold codeMaxOverlap
  rw [List.foldl_map, List.foldl_map]

/-- C10: `compute_code_scores` returns 1.0 for every document when the target
profile is empty or when the maximum raw overlap is ≤ 0; otherwise each score
is raw overlap divided by the maximum overlap, and the maximum is attained by
some retained document, whose score is then exactly 1. -/
theorem claim10_code_scores (doc_meta : Dict DocMeta)
    (target_profile : Dict (Dict ℚ)) :
    (target_profile = [] →
        compute_code_scores doc_meta target_profile =
          doc_meta.map (fun p => (p.1, 1)))
    ∧ (codeMaxOverlap doc_meta target_profile ≤ 0 →
        compute_code_scores doc_meta target_profile =
          doc_meta.map (fun p => (p.1, 1)))
    ∧ (target_profile ≠ [] →
        0 < codeMaxOverlap doc_meta target_profile →
        compute_code_scores doc_meta target_profile =
          doc_meta.map (fun p => (p.1,
            rawCodeScore (build_fi_profiles (dictGet? target_profile "fi")).1
                target_profile p.2 /
              codeMaxOverlap doc_meta target_profile))
        ∧ ∃ p ∈ doc_meta,
            rawCodeScore (build_fi_profiles (dictGet? target_profile "fi")).1
                target_profile p.2 /
              codeMaxOverlap doc_meta target_profile = 1) := by
  refine ⟨fun h => ?_, fun h => ?_, fun h hpos => ⟨?_, ?_⟩⟩
  · unfold compute_code_scores
    rw [if_pos h]
  · by_cases htp : target_profile = []
    · unfold compute_code_scores
      rw [if_pos htp]
    · unfold compute_code_scores
      rw [if_neg htp, if_pos (by rw [codeMaxOverlap_eq]; exact h)]
  · unfold compute_code_scores
    rw [if_neg h, if_neg (by rw [codeMaxOverlap_eq]; exact not_le.mpr hpos)]
    rw [codeMaxOverlap_eq, List.map_map]
    rfl
  · have hmem := foldl_max_mem (doc_meta.map (fun p =>
      rawCodeScore (build_fi_profiles (dictGet? target_profile "fi")).1
        target_profile p.2)) 0
    rcases hmem with hz | hm
    · exfalso
      unfold codeMaxOverlap at hpos
      rw [hz] at hpos
      exact lt_irrefl 0 hpos
    · obtain ⟨p, hp, hval⟩ := List.mem_map.mp hm
      exact ⟨p, hp, by rw [show rawCodeScore _ target_profile p.2 =
          codeMaxOverlap doc_meta target_profile from hval,
          div_self (ne_of_gt hpos)]⟩

/-- Witness for C10: a profile weighting IPC code H04L matched only by `d1`
yields scores raw/max with `d1` at exactly 1. -/
theorem claim10_witness :
    compute_code_scores
        [("d1", { ipc_codes := ["H04L"] }), ("d2", {})]
        [("ipc", [("H04L", 1)])] =
      [("d1", 1), ("d2", 0)] := by
  have hmax : codeMaxOverlap
      [("d1", { ipc_codes := ["H04L"] }), ("d2", {})]
      [("ipc", [("H04L", 1)])] = 1 := by
    simp [codeMaxOverlap, rawCodeScore, build_fi_profiles, taxScore,
      get_doc_fi_norm_codes, dictGetD, dictGet?, fiNormDedup]
  have h := (claim10_code_scores
      [("d1", { ipc_codes := ["H04L"] }), ("d2", {})]
      [("ipc", [("H04L", 1)])]).2.2 (by simp) (by rw [hmax]; norm_num)
  rw [h.1]
  simp [hmax, rawCodeScore, build_fi_profiles, taxScore,
    get_doc_fi_norm_codes, dictGetD, dictGet?, fiNormDedup]

/-- C7 (amended): every per-document value returned by `compute_pi_scores` is
`1 / (1 + b^(−x))` for the literal base `b = 2.71828` (an approximation of
`e`, not `e` itself), where `x` is the weighted sum of the code, facet and
lane-consistency scores; every value lies strictly between 0 and 1. -/
theorem claim7_pi_logistic (doc_meta : Dict DocMeta)
    (target_profile : Dict (Dict ℚ)) (facet_terms : Dict (List String))
    (facet_weights : Dict ℚ) (lane_ranks : Dict (Dict ℤ))
    (lane_weights : Dict ℚ) (pi_weights : Dict ℚ) :
    ∀ p ∈ compute_pi_scores doc_meta target_profile facet_terms facet_weights
        lane_ranks lane_weights pi_weights,
      p.2 = 1 / (1 + Real.rpow 2.71828
          (-(piRaw pi_weights (compute_code_scores doc_meta target_profile)
            (compute_facet_score doc_meta facet_terms (some facet_weights))
            (compute_lane_consistency lane_ranks lane_weights) p.1 : ℚ) : ℝ))
      ∧ 0 < p.2 ∧ p.2 < 1 := by
  intro p hp
  simp only [compute_pi_scores] at hp
  obtain ⟨q, hq, rfl⟩ := List.mem_map.mp hp
  have hy : (0:ℝ) < Real.rpow 2.71828
      (-(piRaw pi_weights (compute_code_scores doc_meta target_profile)
        (compute_facet_score doc_meta facet_terms (some facet_weights))
        (compute_lane_consistency lane_ranks lane_weights) q.1 : ℚ) : ℝ) :=
    Real.rpow_pos_of_pos (by norm_num) _
  refine ⟨rfl, ?_, ?_⟩
  · exact div_pos one_pos (by linarith)
  · rw [div_lt_one (by linarith)]
    linarith

/-- C7 (counterexample): the logistic base in the code is the literal
`2.71828`, not `e`; at raw sum `x = 1` the value `1/(1+2.71828⁻¹)` differs
from the claim's `1/(1+e⁻¹)`. -/
theorem claim7_counterexample :
    compute_pi_scores [("d1", {})] [] [] [] [] [] [("code", 1)] =
      [("d1", 1 / (1 + Real.rpow 2.71828 (-1)))] ∧
    1 / (1 + Real.rpow (2.71828:ℝ) (-1)) ≠ 1 / (1 + Real.exp (-1)) := by
  constructor
  · simp [compute_pi_scores, compute_code_scores, compute_facet_score,
      compute_lane_consistency, piRaw, dictGetD, dictGet?]
    try norm_num
  · have hb : (0:ℝ) < 2.71828 := by norm_num
    have hlt : (2.71828:ℝ) < Real.exp 1 :=
      lt_trans (by norm_num) Real.exp_one_gt_d9
    have h1 : Real.rpow (2.71828:ℝ) (-1) = (2.71828:ℝ)⁻¹ := by
      have h := Real.rpow_intCast (2.71828:ℝ) (-1)
      rw [show (((-1:ℤ) : ℝ)) = (-1:ℝ) by norm_num] at h
      rw [show Real.rpow (2.71828:ℝ) (-1) = (2.71828:ℝ) ^ (-1:ℝ) from rfl, h]
      simp
    have h2 : Real.exp (-1) = (Real.exp 1)⁻¹ := Real.exp_neg 1
    have hinv : (Real.exp 1)⁻¹ < (2.71828:ℝ)⁻¹ := by
      exact inv_strictAnti₀ hb hlt
    have hvals : 1 / (1 + Real.rpow (2.71828:ℝ) (-1)) <
        1 / (1 + Real.exp (-1)) := by
      rw [h1, h2]
      apply one_div_lt_one_div_of_lt
      · have := (Real.exp_pos 1).le
        have : (0:ℝ) < (Real.exp 1)⁻¹ := inv_pos.mpr (Real.exp_pos 1)
        linarith
      · linarith
    exact ne_of_lt hvals

/-- Witness for C7: at a one-document input with π weight 1 on the code
signal the logistic value lies strictly between 0 and 1. -/
theorem claim7_witness :
    0 < (1 : ℝ) / (1 + Real.rpow 2.71828
        (-(piRaw [("code", 1)] (compute_code_scores [("d1", {})] [])
          (compute_facet_score [("d1", {})] [] (some []))
          (compute_lane_consistency [] []) "d1" : ℚ) : ℝ)) ∧
      (1 : ℝ) / (1 + Real.rpow 2.71828
        (-(piRaw [("code", 1)] (compute_code_scores [("d1", {})] [])
          (compute_facet_score [("d1", {})] [] (some []))
          (compute_lane_consistency [] []) "d1" : ℚ) : ℝ)) < 1 := by
  have h := claim7_pi_logistic [("d1", {})] [] [] [] [] [] [("code", 1)]
      ("d1", 1 / (1 + Real.rpow 2.71828
        (-(piRaw [("code", 1)] (compute_code_scores [("d1", {})] [])
          (compute_facet_score [("d1", {})] [] (some []))
          (compute_lane_consistency [] []) "d1" : ℚ) : ℝ)))
      (by simp [compute_pi_scores])
  exact ⟨h.2.1, h.2.2⟩

theorem conds_from_filter_entry_field (entry : FilterEntry) :
    ∀ c ∈ conds_from_filter_entry entry, c.field = entry.field := by
  intro c hc
  unfold conds_from_filter_entry at hc
  simp only [List.mem_append] at hc
  rcases hc with ((((h | h) | h) | h) | h) | h <;>
    · repeat' split at h
      all_goals simp_all

theorem getStrKey_ok (payload : List (String × FValue)) (k s : String)
    (h : getStrKey payload k = .ok s) :
    dictGet? payload k = some (.vStr s) := by
  unfold getStrKey at h
  split at h <;> simp_all

theorem condValidate_field (payload : List (String × FValue)) (c : Cond)
    (h : condValidate payload = .ok c) :
    ∃ s, dictGet? payload "field" = some (.vStr s) ∧ c.field = s := by
  unfold condValidate at h
  split at h
  case _ lop0 field op0 h1 h2 h3 =>
    refine ⟨field, getStrKey_ok _ _ _ h2, ?_⟩
    repeat' split at h <;> simp_all
    rw [← h]
  all_goals simp_all

theorem feValidate_field (payload : List (String × FValue))
    (entry : FilterEntry) (h : feValidate payload = .ok entry) :
    (∃ s, dictGet? payload "field" = some (.vStr s) ∧
      entry.field = pyLowerStr s) ∨
    (∃ n, dictGet? payload "field" = some (.vInt n) ∧
      entry.field = pyLowerStr (toString n)) := by
  unfold feValidate at h
  split at h
  · rename_i s hs
    left
    refine ⟨s, hs, ?_⟩
    split at h
    all_goals simp_all
    rw [← h]
  · rename_i n hn
    right
    refine ⟨n, hn, ?_⟩
    split at h
    all_goals simp_all
    rw [← h]
  · simp_all

theorem dictGet?_dictSet_ne {α : Type} (m : Dict α) (k k' : String) (v : α)
    (h : ¬k = k') : dictGet? (dictSet m k v) k' = dictGet? m k' := by
  induction m with
  | nil => simp [dictSet, dictGet?, h]
  | cons p rest ih =>
      by_cases h1 : p.1 = k
      · obtain ⟨k0, w⟩ := p
        simp only at h1
        subst h1
        simp [dictSet, dictGet?, h]
      · obtain ⟨k0, w⟩ := p
        simp only at h1
        simp [dictSet, dictGet?, h1, ih]

theorem valueDateFix_field (payload : List (String × FValue)) :
    dictGet? (valueDateFix payload) "field" = dictGet? payload "field" := by
  unfold valueDateFix
  split
  · exact dictGet?_dictSet_ne _ _ _ _ (by decide)
  · rfl

theorem rangePayloadFix_field (payload : List (String × FValue)) :
    dictGet? (rangePayloadFix payload) "field" = dictGet? payload "field" := by
  unfold rangePayloadFix
  repeat' split
  all_goals first
    | rfl
    | exact dictGet?_dictSet_ne _ _ _ _ (by decide)

theorem normalizeGo_field :
    ∀ (filters : List RawFilter) (conds : List Cond),
      normalizeGo filters = Except.ok conds →
      ∀ c ∈ conds, ∃ rf ∈ filters, providesField rf c.field := by
  intro filters
  induction filters with
  | nil =>
      intro conds h c hc
      simp only [normalizeGo] at h
      cases h
      simp at hc
  | cons rf rest ih =>
      intro conds h c hc
      cases rf with
      | asCond c0 =>
          unfold normalizeGo at h
          split at h
          · cases h
            rcases List.mem_cons.mp hc with rfl | hmem
            · exact ⟨.asCond c, List.mem_cons_self _ _, rfl⟩
            · obtain ⟨rf', hrf', hp⟩ := ih _ (by assumption) c hmem
              exact ⟨rf', List.mem_cons_of_mem _ hrf', hp⟩
          · cases h
      | asDict payload =>
          unfold normalizeGo at h
          split at h
          · split at h
            · rename_i entry r hfe hgo
              cases h
              rcases List.mem_append.mp hc with hmem | hmem
              · have hf := conds_from_filter_entry_field entry c hmem
                refine ⟨.asDict payload, List.mem_cons_self _ _, ?_⟩
                rcases feValidate_field payload entry hfe with ⟨s, hs, he⟩ | ⟨n, hn, he⟩
                · exact Or.inl ⟨s, hs, Or.inr (by rw [hf, he])⟩
                · exact Or.inr ⟨n, hn, by rw [hf, he]⟩
              · obtain ⟨rf', hrf', hp⟩ := ih _ hgo c hmem
                exact ⟨rf', List.mem_cons_of_mem _ hrf', hp⟩
            · cases h
            · cases h
          · split at h
            · rename_i c1 r hcv hgo
              cases h
              rcases List.mem_cons.mp hc with rfl | hmem
              · obtain ⟨s, hs, he⟩ := condValidate_field _ _ hcv
                rw [rangePayloadFix_field, valueDateFix_field] at hs
                exact ⟨.asDict payload, List.mem_cons_self _ _,
                  Or.inl ⟨s, hs, Or.inl he⟩⟩
              · obtain ⟨rf', hrf', hp⟩ := ih _ hgo c hmem
                exact ⟨rf', List.mem_cons_of_mem _ hrf', hp⟩
            · cases h
            · cases h
      | invalid =>
          unfold normalizeGo at h
          cases h

/-- C4 (amended): the tool surface appends no country default — an empty
filter list normalizes to an empty condition list, and every condition
produced by `_normalize_filters` takes its `field` from one of the supplied
entries (verbatim for `Cond` inputs and flat payloads, `str(..).lower()`-ed
for `FilterEntry` payloads); no `country` condition appears unless the caller
supplied one. -/
theorem claim4_no_country_default :
    normalize_filters [] = Except.ok [] ∧
    ∀ (filters : List RawFilter) (conds : List Cond),
      normalize_filters filters = Except.ok conds →
      ∀ c ∈ conds, ∃ rf ∈ filters, providesField rf c.field := by
  refine ⟨rfl, ?_⟩
  intro filters conds hok c hc
  unfold normalize_filters at hok
  split at hok
  · cases hok
    simp at hc
  · exact normalizeGo_field filters conds hok c hc

/-- C4 (counterexample): a call whose only filter is a `pubyear` condition
reaches the orchestrator with exactly that condition and no `country`
condition appended; a call with no filters carries no condition at all. -/
theorem claim4_counterexample :
    normalize_filters
        [RawFilter.asDict [("lop", FValue.vStr "and"),
          ("field", FValue.vStr "pubyear"), ("op", FValue.vStr "eq"),
          ("value", FValue.vStr "2020")]] =
      Except.ok [⟨"and", "pubyear", "eq", FValue.vStr "2020"⟩] ∧
    normalize_filters [] = Except.ok [] ∧
    ∀ c ∈ [(⟨"and", "pubyear", "eq", FValue.vStr "2020"⟩ : Cond)],
      c.field ≠ "country" := by
  refine ⟨rfl, rfl, ?_⟩
  intro c hc
  rcases List.mem_singleton.mp hc with rfl
  decide

/-- Witness for C4: applying the amended theorem at a single `pubyear`
payload locates the supplied entry as the provenance of the one output
condition. -/
theorem claim4_witness :
    ∃ rf ∈ [RawFilter.asDict [("lop", FValue.vStr "and"),
        ("field", FValue.vStr "pubyear"), ("op", FValue.vStr "eq"),
        ("value", FValue.vStr "2020")]],
      providesField rf "pubyear" :=
  claim4_no_country_default.2
    [RawFilter.asDict [("lop", FValue.vStr "and"),
      ("field", FValue.vStr "pubyear"), ("op", FValue.vStr "eq"),
      ("value", FValue.vStr "2020")]]
    [⟨"and", "pubyear", "eq", FValue.vStr "2020"⟩] rfl
    ⟨"and", "pubyear", "eq", FValue.vStr "2020"⟩ (by simp)

theorem dictSet_ne_nil {α : Type} (m : Dict α) (k : String) (v : α) :
    dictSet m k v ≠ [] := by
  cases m with
  | nil => simp [dictSet]
  | cons h t => unfold dictSet; split <;> simp

theorem readLanes_ok_ne_nil (store : StoreM) (top_m : Dict ℤ) :
    ∀ (runs : List BlendRunInput) (acc ld : Dict (List (String × ℚ))),
      readLanes store top_m runs acc = .ok ld → acc ≠ [] → ld ≠ [] := by
  intro runs
  induction runs with
  | nil =>
      intro acc ld hok hacc
      simp only [readLanes] at hok
      cases hok
      exact hacc
  | cons run rest ih =>
      intro acc ld hok hacc
      simp only [readLanes] at hok
      split at hok
      · cases hok
      · split at hok
        · cases hok
        · split at hok
          · cases hok
          · exact ih _ ld hok (dictSet_ne_nil _ _ _)

theorem blendExc_never_ok (store : StoreM) (runs : List BlendRunInput)
    (rrf_k : ℤ) (top_m : Dict ℤ) :
    ∃ e, blendExc store runs rrf_k top_m = Except.error e := by
  unfold blendExc
  split
  · exact ⟨_, rfl⟩
  · rename_i hne
    split
    · exact ⟨_, rfl⟩
    · rename_i lane_docs hok
      have hruns : runs ≠ [] := by
        intro h
        subst h
        simp at hne
      have hld : lane_docs ≠ [] := by
        cases runs with
        | nil => exact absurd rfl hruns
        | cons run rest =>
            simp only [readLanes] at hok
            split at hok
            · cases hok
            · split at hok
              · cases hok
              · split at hok
                · cases hok
                · exact readLanes_ok_ne_nil store top_m rest _ lane_docs hok
                    (dictSet_ne_nil _ _ _)
      unfold compute_rrf_scores_dyn
      rw [if_neg (by simpa [List.isEmpty_iff] using hld)]
      exact ⟨_, rfl⟩

theorem mutate_run_exc_never_ok (store : StoreM) (run_id : String)
    (delta : MutateDeltaM) :
    ∃ e, mutate_run_exc store run_id delta = Except.error e := by
  unfold mutate_run_exc
  split
  · exact ⟨_, rfl⟩
  · split
    · exact ⟨_, rfl⟩
    · exact blendExc_never_ok _ _ _ _

/-- C3: `mutate_run` never produces a new fusion run. `blend` passes
`run_weights` — a list of `(lane, weight)` pairs — where
`compute_rrf_scores` expects a dict and calls `.get` on it, raising
`AttributeError` the moment any lane documents exist; with no source runs it
fails validation instead. Concretely, mutating the stored fusion run with a
weight-and-rrf_k delta raises the AttributeError rather than returning a new
run, and in general every `mutate_run` call returns an error, so no mutated
run `F'` (let alone one whose lineage contains `F`) is ever created. -/
theorem claim3_mutate_attribute_error :
    mutate_run_exc mutateExampleStore "fusion-bbbb222200"
        { weights := some [("semantic", 5/4)], rrf_k := some 45 } =
      Except.error "AttributeError: list object has no attribute get" ∧
    ∀ (store : StoreM) (run_id : String) (delta : MutateDeltaM),
      ∃ e, mutate_run_exc store run_id delta = Except.error e := by
  constructor
  · rfl
  · intro store run_id delta
    unfold mutate_run_exc
    split
    · exact ⟨_, rfl⟩
    · split
      · exact ⟨_, rfl⟩
      · exact blendExc_never_ok _ _ _ _

end RRFusion
